import Mathlib

/-!
Verification development for the HAlign-4 alignment core.

The C++ sources are embedded shallowly:

* byte strings become `List Char` (a C++ `char` is read through its byte
  value, `Char.toNat % 256`);
* machine integers become `Nat` with explicit `% 2^64` (resp. `% 2^32`)
  where the C++ arithmetic can wrap;
* `double` quantities that feed only comparisons (`f_top_frac`,
  `q_occ_frac`, Jaccard values) are modelled as exact rationals `ℚ`;
* functions that throw (`std::invalid_argument`, `std::runtime_error`)
  return `Except String _`;
* definitions whose C++ body is not among the sources (only headers,
  callers or tests are) carry a doc comment starting with
  `Modelled from the spec:` and follow the specification text.

Each embedded definition keeps the name of the C++ entity it models.
-/

namespace cigar

/-- The packed CIGAR unit type: `(len << 4) | op_code`, a `uint32_t` in C++. -/
abbrev CigarUnit := Nat

/-- A compact CIGAR: `std::vector<CigarUnit>`. -/
abbrev Cigar := List CigarUnit

/-- `opCharToCode` from `main.cpp`: map an operation character to its 4-bit
SAM/BAM opcode, `0xFFFFFFFF` for an unknown character. -/
def opCharToCode (operation : Char) : Nat :=
  match operation with
  | 'M' => 0
  | 'I' => 1
  | 'D' => 2
  | 'N' => 3
  | 'S' => 4
  | 'H' => 5
  | 'P' => 6
  | '=' => 7
  | 'X' => 8
  | _   => 4294967295

/-- `opCodeToChar` from `main.cpp`: map a 4-bit opcode back to its character,
`'?'` for an unknown code. -/
def opCodeToChar (op_code : Nat) : Char :=
  match op_code with
  | 0 => 'M'
  | 1 => 'I'
  | 2 => 'D'
  | 3 => 'N'
  | 4 => 'S'
  | 5 => 'H'
  | 6 => 'P'
  | 7 => '='
  | 8 => 'X'
  | _ => '?'

/-- `kMaxLen` from `main.cpp`: the 28-bit length limit `(1 << 28) - 1`. -/
def kMaxLen : Nat := 2 ^ 28 - 1

/-- Raw unit packing `(len << 4) | (op_code & 0xF)`, shared by the encoder and
by the aligner code paths that build units directly. -/
def mkUnit (op_code len : Nat) : CigarUnit := (len <<< 4) ||| (op_code &&& 0xF)

/-- `cigarToInt` from `main.cpp`: encode `(op, len)`; throws
`std::invalid_argument` when `len` exceeds 28 bits or the operation character
is unknown (checked in that order). -/
def cigarToInt (operation : Char) (len : Nat) : Except String CigarUnit :=
  if len > kMaxLen then
    .error "cigarToInt: len exceeds 28-bit limit"
  else if opCharToCode operation = 4294967295 then
    .error "cigarToInt: unknown CIGAR operation"
  else
    .ok (mkUnit (opCharToCode operation) len)

/-- `intToCigar` from `main.cpp`: decode a packed unit into
`(operation, len)`; an unknown opcode yields `'?'` (release behaviour). -/
def intToCigar (cigar_unit : CigarUnit) : Char × Nat :=
  (opCodeToChar (cigar_unit &&& 0xF), cigar_unit >>> 4)

/-- `hasInsertion` from `main.cpp`: whether any unit's low 4 bits equal the
insertion opcode `1`. -/
def hasInsertion (c : Cigar) : Bool :=
  c.any (fun u => u &&& 0xF == 1)

/-- `cigarToString` from `main.cpp`: concatenate `<len><op>` pairs. -/
def cigarToString (c : Cigar) : String :=
  c.foldl (fun s u => s ++ toString (u >>> 4) ++ (opCodeToChar (u &&& 0xF)).toString) ""

/-- Modelled from the spec: `getRefLength` is declared in `align.h` but its
definition is not among the sources; spec §3 defines
`ref_length = Σ len over {M, D, N, =, X}`. -/
def getRefLength (c : Cigar) : Nat :=
  c.foldl
    (fun acc u =>
      let op := u &&& 0xF
      if op = 0 ∨ op = 2 ∨ op = 3 ∨ op = 7 ∨ op = 8 then acc + (u >>> 4) else acc)
    0

/-- Modelled from the spec: `getQueryLength` is declared in `align.h` but its
definition is not among the sources; spec §3 defines
`qry_length = Σ len over {M, I, S, =, X}`. -/
def getQueryLength (c : Cigar) : Nat :=
  c.foldl
    (fun acc u =>
      let op := u &&& 0xF
      if op = 0 ∨ op = 1 ∨ op = 4 ∨ op = 7 ∨ op = 8 then acc + (u >>> 4) else acc)
    0

/-- Modelled from the spec: `appendCigar` is declared in `align.h` but its
definition is not among the sources; spec §4.5 `append_with_merge` extends the
accumulator, summing the last unit of `acc` with the first of `other` when
they share an opcode. -/
def appendCigar (acc other : Cigar) : Cigar :=
  match acc.getLast?, other with
  | some last, first :: rest =>
      if last &&& 0xF = first &&& 0xF then
        acc.dropLast ++ (mkUnit (last &&& 0xF) ((last >>> 4) + (first >>> 4)) :: rest)
      else
        acc ++ other
  | _, _ => acc ++ other

/-- `aligned_length` as precomputed by `cigar::alignQueryToRef` in `main.cpp`:
the sum of the lengths of `M`, `=`, `X`, `D`, `I` and `S` units (note that the
source omits `N` and `P` here even though its fill loop later skips them like
`D`). -/
def alignedLength (c : Cigar) : Nat :=
  c.foldl
    (fun acc u =>
      let op := opCodeToChar (u &&& 0xF)
      if op = 'M' ∨ op = '=' ∨ op = 'X' ∨ op = 'D' ∨ op = 'I' ∨ op = 'S' then
        acc + (u >>> 4)
      else acc)
    0

/-- `query_consumed` as computed by `cigar::alignQueryToRef` in `main.cpp`:
the sum of the lengths of the query-consuming units `M`, `=`, `X`, `I`, `S`. -/
def queryConsumed (c : Cigar) : Nat :=
  c.foldl
    (fun acc u =>
      let op := opCodeToChar (u &&& 0xF)
      if op = 'M' ∨ op = '=' ∨ op = 'X' ∨ op = 'I' ∨ op = 'S' then
        acc + (u >>> 4)
      else acc)
    0

/-- The inner back-to-front copy loop of `cigar::alignQueryToRef`:
`len` times do `out[--aligned_pos] = original_query[--query_pos]`.
The C++ cursors are `std::size_t`; decrementing them at `0` is undefined
behaviour there, modelled here by truncated subtraction together with the
out-of-range-tolerant `List.set` / `List.getD`. -/
def copyBack (orig : List Char) : Nat → Nat → Nat → List Char → List Char × Nat × Nat
  | 0, ap, qp, out => (out, ap, qp)
  | n + 1, ap, qp, out =>
      copyBack orig n (ap - 1) (qp - 1) (out.set (ap - 1) (orig.getD (qp - 1) '-'))

/-- The back-to-front fill loop of `cigar::alignQueryToRef`, iterating over the
reversed CIGAR (`rbegin`…`rend`): `M`/`=`/`X`/`I`/`S` copy `len` original
characters, `D`/`N`/`P` step the write cursor over pre-filled gap characters,
`H` does nothing, and any other operation throws `std::runtime_error`. -/
def fillBack (orig : List Char) : List CigarUnit → Nat → Nat → List Char →
    Except String (List Char × Nat × Nat)
  | [], ap, qp, out => .ok (out, ap, qp)
  | u :: rest, ap, qp, out =>
      let op := opCodeToChar (u &&& 0xF)
      let len := u >>> 4
      if op = 'M' ∨ op = '=' ∨ op = 'X' then
        match copyBack orig len ap qp out with
        | (out1, ap1, qp1) => fillBack orig rest ap1 qp1 out1
      else if op = 'I' then
        match copyBack orig len ap qp out with
        | (out1, ap1, qp1) => fillBack orig rest ap1 qp1 out1
      else if op = 'D' then
        fillBack orig rest (ap - len) qp out
      else if op = 'S' then
        match copyBack orig len ap qp out with
        | (out1, ap1, qp1) => fillBack orig rest ap1 qp1 out1
      else if op = 'H' then
        fillBack orig rest ap qp out
      else if op = 'N' ∨ op = 'P' then
        fillBack orig rest (ap - len) qp out
      else
        .error "alignQueryToRef: unsupported CIGAR operation"

/-- `cigar::alignQueryToRef` from `main.cpp`: project a query string into
reference coordinates in place.  Empty query or empty CIGAR (or an all-`H`
CIGAR with `aligned_length = 0`) is a no-op; otherwise the output buffer is
pre-filled with `aligned_length` gap characters and filled back-to-front. -/
def alignQueryToRef (query : List Char) (c : Cigar) : Except String (List Char) :=
  if query.isEmpty ∨ c.isEmpty then .ok query
  else
    let aligned := alignedLength c
    if aligned = 0 then .ok query
    else do
      let r ← fillBack query c.reverse aligned query.length (List.replicate aligned '-')
      pure r.1

/-- Forward (left-to-right) rendering of the same projection: each
query-consuming unit copies the next `len` query characters, each
gap-inserting unit contributes `len` gap characters, `H` contributes nothing.
Used to state what `alignQueryToRef` computes. -/
def renderPad : Cigar → List Char → List Char
  | [], _ => []
  | u :: rest, s =>
      let op := opCodeToChar (u &&& 0xF)
      let len := u >>> 4
      if op = 'M' ∨ op = '=' ∨ op = 'X' ∨ op = 'I' ∨ op = 'S' then
        s.take len ++ renderPad rest (s.drop len)
      else if op = 'D' ∨ op = 'N' ∨ op = 'P' then
        List.replicate len '-' ++ renderPad rest s
      else
        renderPad rest s

/-- The query characters of a rendered projection: concatenation of the
segments consumed by query-consuming units (what is left of `renderPad` after
deleting every gap character the operation inserted). -/
def renderKept : Cigar → List Char → List Char
  | [], _ => []
  | u :: rest, s =>
      let op := opCodeToChar (u &&& 0xF)
      let len := u >>> 4
      if op = 'M' ∨ op = '=' ∨ op = 'X' ∨ op = 'I' ∨ op = 'S' then
        s.take len ++ renderKept rest (s.drop len)
      else
        renderKept rest s

/-- Per-unit reference-length contribution. -/
def refContrib (u : CigarUnit) : Nat :=
  let op := u &&& 0xF
  if op = 0 ∨ op = 2 ∨ op = 3 ∨ op = 7 ∨ op = 8 then u >>> 4 else 0

/-- Per-unit query-length contribution. -/
def qryContrib (u : CigarUnit) : Nat :=
  let op := u &&& 0xF
  if op = 0 ∨ op = 1 ∨ op = 4 ∨ op = 7 ∨ op = 8 then u >>> 4 else 0

/-- Per-unit contribution to `aligned_length` (`M`, `=`, `X`, `D`, `I`, `S`),
mirroring the fold body of `alignedLength`. -/
def aContrib (u : CigarUnit) : Nat :=
  let op := opCodeToChar (u &&& 0xF)
  if op = 'M' ∨ op = '=' ∨ op = 'X' ∨ op = 'D' ∨ op = 'I' ∨ op = 'S' then u >>> 4 else 0

/-- Per-unit contribution to `query_consumed` (`M`, `=`, `X`, `I`, `S`),
mirroring the fold body of `queryConsumed`. -/
def qContrib (u : CigarUnit) : Nat :=
  let op := opCodeToChar (u &&& 0xF)
  if op = 'M' ∨ op = '=' ∨ op = 'X' ∨ op = 'I' ∨ op = 'S' then u >>> 4 else 0

/-- Per-unit contribution of the query-consuming, non-reference operations
(`I`, opcode 1, and `S`, opcode 4). -/
def insContrib (u : CigarUnit) : Nat :=
  if u &&& 0xF = 1 ∨ u &&& 0xF = 4 then u >>> 4 else 0

/-- The operations `alignQueryToRef`'s fill loop handles away from the `N`/`P`
corner: `M`, `=`, `X`, `I`, `D`, `S`, `H`. -/
def opOk (u : CigarUnit) : Prop :=
  opCodeToChar (u &&& 0xF) = 'M' ∨ opCodeToChar (u &&& 0xF) = '=' ∨
  opCodeToChar (u &&& 0xF) = 'X' ∨ opCodeToChar (u &&& 0xF) = 'I' ∨
  opCodeToChar (u &&& 0xF) = 'D' ∨ opCodeToChar (u &&& 0xF) = 'S' ∨
  opCodeToChar (u &&& 0xF) = 'H'

instance opOkDec (u : CigarUnit) : Decidable (opOk u) := by
  unfold opOk; infer_instance

end cigar

namespace mash

/-- `mash::nt4` from `mash.cpp`: 2-bit DNA code used by the MinHash sketcher
(`U` collapses to `T`; every other byte is invalid, code 4). -/
def nt4 (c : Char) : Nat :=
  match c with
  | 'A' => 0 | 'a' => 0
  | 'C' => 1 | 'c' => 1
  | 'G' => 2 | 'g' => 2
  | 'T' => 3 | 't' => 3
  | 'U' => 3 | 'u' => 3
  | _ => 4

/-- `mash::Sketch`: the k-mer size and the (sorted, distinct, truncated)
64-bit hash list. -/
structure Sketch where
  k : Nat
  hashes : List Nat
deriving Repr, DecidableEq

/-- 64-bit rotate left, used by MurmurHash3. -/
def rotl64 (x r : Nat) : Nat :=
  ((x <<< r) ||| (x >>> (64 - r))) % 2 ^ 64

/-- The 64-bit finalisation mixer of MurmurHash3_x64_128. -/
def fmix64 (x : Nat) : Nat :=
  let a := x ^^^ (x >>> 33)
  let b := a * 0xff51afd7ed558ccd % 2 ^ 64
  let c := b ^^^ (b >>> 33)
  let d := c * 0xc4ceb9fe1a85ec53 % 2 ^ 64
  d ^^^ (d >>> 33)

/-- Modelled from the spec: `murmur64` in `mash.cpp` calls
`MurmurHash3_x64_128` (vendored header, not among the sources) on the 8-byte
little-endian representation of the rolling code and keeps `out[0]`.  This is
the canonical public MurmurHash3 x64 algorithm specialised to an 8-byte key:
the single tail block is the code itself. -/
def murmur64 (code seed : Nat) : Nat :=
  let c1 := 0x87c37b91114253d5
  let c2 := 0x4cf5ab62691e33ed
  let k1 := code * c1 % 2 ^ 64
  let k2 := rotl64 k1 31
  let k3 := k2 * c2 % 2 ^ 64
  let h1a := (seed ^^^ k3) ^^^ 8
  let h2a := seed ^^^ 8
  let h1b := (h1a + h2a) % 2 ^ 64
  let h2b := (h2a + h1b) % 2 ^ 64
  let h1c := fmix64 h1b
  let h2c := fmix64 h2b
  (h1c + h2c) % 2 ^ 64

/-- One character step of the rolling-code loop in `mash::sketchFromSequence`:
state `(fwd, rev, valid, hashes)`.  An invalid byte resets the codes and the
valid-prefix counter; a valid byte updates both codes and, once `valid`
reaches `k`, pushes the hash of the chosen code. -/
def sketchStep (k mask shiftv : Nat) (is_forward : Bool)
    (st : Nat × Nat × Nat × List Nat) (ch : Char) : Nat × Nat × Nat × List Nat :=
  let c := nt4 ch
  if c ≥ 4 then (0, 0, 0, st.2.2.2)
  else
    let fwd := ((st.1 <<< 2) ||| c) &&& mask
    let rev := (st.2.1 >>> 2) ||| ((3 ^^^ c) <<< shiftv)
    let valid := if st.2.2.1 < k then st.2.2.1 + 1 else st.2.2.1
    if valid < k then (fwd, rev, valid, st.2.2.2)
    else (fwd, rev, valid, st.2.2.2 ++ [murmur64 (if is_forward then fwd else rev) 42])

/-- `std::unique` on a list: remove consecutive duplicates, keeping the first
element of each run. -/
def uniqAdj : List Nat → List Nat
  | [] => []
  | [a] => [a]
  | a :: b :: rest => if a = b then uniqAdj (a :: rest) else a :: uniqAdj (b :: rest)

/-- `mash::sketchFromSequence` from `mash.cpp`: reject `k = 0`, `s = 0`,
`|seq| < k` or `k > 31` with an empty sketch; otherwise collect the
MurmurHash3 values of all valid rolling k-mer codes (seed 42), sort them,
deduplicate, and truncate to the first `sketch_size`.  The `w` parameter is
unused in the source. -/
def sketchFromSequence (seq : List Char) (k _w sketch_size : Nat)
    (is_forward : Bool) : Sketch :=
  if k = 0 ∨ sketch_size = 0 then { k := k, hashes := [] }
  else if seq.length < k then { k := k, hashes := [] }
  else if k > 31 then { k := k, hashes := [] }
  else
    let mask := (1 <<< (2 * k)) - 1
    let shiftv := 2 * (k - 1)
    let collected := (seq.foldl (sketchStep k mask shiftv is_forward) (0, 0, 0, [])).2.2.2
    let sorted := collected.mergeSort (· ≤ ·)
    let uniq := uniqAdj sorted
    { k := k, hashes := uniq.take sketch_size }

/-- `mash::intersectionSizeSortedUnique` from `mash.cpp`: two-pointer merge
count of equal elements. -/
def intersectionSizeSortedUnique : List Nat → List Nat → Nat
  | [], _ => 0
  | _ :: _, [] => 0
  | a :: as, b :: bs =>
      if a = b then intersectionSizeSortedUnique as bs + 1
      else if a < b then intersectionSizeSortedUnique as (b :: bs)
      else intersectionSizeSortedUnique (a :: as) bs
termination_by a b => a.length + b.length

/-- `mash::jaccard` from `mash.cpp`: requires equal `k` (else
`std::invalid_argument`); both hash lists empty gives `1.0`, exactly one empty
gives `0.0`, otherwise `|A∩B| / (|a| + |b| - |A∩B|)`.  The `double` result is
modelled as an exact rational. -/
def jaccard (a b : Sketch) : Except String ℚ :=
  if a.k ≠ b.k then .error "mash::jaccard: mismatched k"
  else if a.hashes.isEmpty ∧ b.hashes.isEmpty then .ok 1
  else if a.hashes.isEmpty ∨ b.hashes.isEmpty then .ok 0
  else
    let inter := intersectionSizeSortedUnique a.hashes b.hashes
    let uni := a.hashes.length + b.hashes.length - inter
    if uni = 0 then .ok 1
    else .ok ((inter : ℚ) / (uni : ℚ))

end mash

namespace minimizer

/-- `minimizer::nt4_table` from `seed.h`, transcribed entry by entry.  (Its
own documentation promises `A/a → 0`, `C/c → 1`, `G/g → 2`, `T/t/U/u → 3`,
everything else `4`.) -/
def nt4_table : List Nat := [
  4, 4, 4, 4, 4, 4, 4, 4, 4, 4, 4, 4, 4, 4, 4, 4,
  4, 4, 4, 4, 4, 4, 4, 4, 4, 4, 4, 4, 4, 4, 4, 4,
  4, 4, 4, 4, 4, 4, 4, 4, 4, 4, 4, 4, 4, 4, 4, 4,
  4, 4, 4, 4, 4, 4, 4, 4, 4, 4, 4, 4, 4, 4, 4, 4,
  4, 0, 4, 1, 4, 4, 4, 2, 4, 4, 4, 4, 4, 4, 4, 4,
  4, 4, 4, 4, 4, 4, 4, 4, 4, 4, 4, 4, 3, 3, 4, 4,
  4, 4, 4, 4, 4, 4, 4, 4, 4, 4, 0, 4, 1, 4, 4, 4,
  2, 4, 4, 4, 4, 4, 4, 4, 4, 4, 4, 4, 4, 4, 4, 3,
  3, 4, 4, 4, 4, 4, 4, 4, 4, 4, 4, 4, 4, 4, 4, 4,
  4, 4, 4, 4, 4, 4, 4, 4, 4, 4, 4, 4, 4, 4, 4, 4,
  4, 4, 4, 4, 4, 4, 4, 4, 4, 4, 4, 4, 4, 4, 4, 4,
  4, 4, 4, 4, 4, 4, 4, 4, 4, 4, 4, 4, 4, 4, 4, 4,
  4, 4, 4, 4, 4, 4, 4, 4, 4, 4, 4, 4, 4, 4, 4, 4,
  4, 4, 4, 4, 4, 4, 4, 4, 4, 4, 4, 4, 4, 4, 4, 4,
  4, 4, 4, 4, 4, 4, 4, 4, 4, 4, 4, 4, 4, 4, 4, 4,
  4, 4, 4, 4, 4, 4, 4, 4, 4, 4, 4, 4, 4, 4, 4, 4]

/-- Table lookup `nt4_table[(uint8_t)c]`. -/
def nt4t (c : Char) : Nat := nt4_table.getD (c.toNat % 256) 4

/-- `minimizer::splitmix64` from `seed.h`/`part_005`. -/
def splitmix64 (x : Nat) : Nat :=
  let a := (x + 0x9e3779b97f4a7c15) % 2 ^ 64
  let b := (a ^^^ (a >>> 30)) * 0xbf58476d1ce4e5b9 % 2 ^ 64
  let c := (b ^^^ (b >>> 27)) * 0x94d049bb133111eb % 2 ^ 64
  c ^^^ (c >>> 31)

/-- `minimizer::Cand`: a window candidate `(hash, k-mer start position)`. -/
structure Cand where
  h : Nat
  pos : Nat
deriving Repr, DecidableEq, Inhabited

/-- `minimizer::RingMinQueue`: the fixed-capacity ring buffer carrying the
monotonic window deque (`buf_`, `cap_`, `head_`, `size_`).  The C++ vector is
value-initialised, so the buffer starts as zeros. -/
structure Ring where
  buf : Array Cand
  cap : Nat
  head : Nat
  size : Nat
deriving Repr

/-- `RingMinQueue(capacity)`. -/
def Ring.init (capacity : Nat) : Ring :=
  { buf := Array.mkArray capacity { h := 0, pos := 0 }, cap := capacity, head := 0, size := 0 }

/-- `RingMinQueue::idx`: `head + off`, wrapped once past `cap`. -/
def Ring.idx (r : Ring) (off : Nat) : Nat :=
  let i := r.head + off
  if i ≥ r.cap then i - r.cap else i

/-- `RingMinQueue::clear`. -/
def Ring.clear (r : Ring) : Ring := { r with head := 0, size := 0 }

/-- `RingMinQueue::empty`. -/
def Ring.isEmpty (r : Ring) : Bool := r.size == 0

/-- `RingMinQueue::front`. -/
def Ring.front (r : Ring) : Cand := r.buf.getD (r.idx 0) default

/-- `RingMinQueue::back` (`buf_[idx(size_ - 1)]`). -/
def Ring.back (r : Ring) : Cand := r.buf.getD (r.idx (r.size - 1)) default

/-- Out-of-range-tolerant array write (the C++ write is in range whenever the
queue is used within its capacity). -/
def arraySetD (a : Array Cand) (i : Nat) (v : Cand) : Array Cand :=
  if h : i < a.size then a.set ⟨i, h⟩ v else a

/-- The eviction loop of `RingMinQueue::push`: pop from the back while the
tail hash is `≥` the incoming hash.  Structured as fuel recursion on the
current size, which the loop strictly decreases. -/
def Ring.evict (r : Ring) (h : Nat) : Ring :=
  match _hs : r.size with
  | 0 => r
  | n + 1 =>
      if (r.back).h ≥ h then
        Ring.evict { r with size := n } h
      else r
termination_by r.size
decreasing_by simp_all

/-- `RingMinQueue::push`: evict, then write at `idx(size)` and grow. -/
def Ring.push (r : Ring) (h pos : Nat) : Ring :=
  let r1 := r.evict h
  { r1 with buf := arraySetD r1.buf (r1.idx r1.size) { h := h, pos := pos },
            size := r1.size + 1 }

/-- `RingMinQueue::popExpired`: pop from the front while `front.pos <
win_start`. -/
def Ring.popExpired (r : Ring) (win_start : Nat) : Ring :=
  match _hs : r.size with
  | 0 => r
  | n + 1 =>
      if (r.front).pos < win_start then
        Ring.popExpired { r with head := r.idx 1, size := n } win_start
      else r
termination_by r.size
decreasing_by simp_all

/-- `minimizer::MinimizerHit` from `seed.h`: the 16-byte packed hit
`x = (hash56 << 8) | span`, `y = (strand·2^31 | rid) << 32 | pos`. -/
structure MinimizerHit where
  x : Nat
  y : Nat
deriving Repr, DecidableEq, Inhabited

/-- The packing constructor `MinimizerHit(hash56, pos, rid, strand, span)`. -/
def mkHit (hash56 pos rid : Nat) (strand : Bool) (span : Nat) : MinimizerHit :=
  { x := (hash56 <<< 8) ||| (span % 256),
    y := (((if strand then (rid % 2 ^ 31) ||| (2 ^ 31) else rid % 2 ^ 31)) <<< 32) |||
      (pos % 2 ^ 32) }

/-- `MinimizerHit::hash`. -/
def MinimizerHit.hash (m : MinimizerHit) : Nat := m.x >>> 8

/-- `MinimizerHit::span`. -/
def MinimizerHit.span (m : MinimizerHit) : Nat := m.x % 256

/-- `MinimizerHit::pos`. -/
def MinimizerHit.pos (m : MinimizerHit) : Nat := m.y % 2 ^ 32

/-- `MinimizerHit::rid`. -/
def MinimizerHit.rid (m : MinimizerHit) : Nat := (m.y >>> 32) % 2 ^ 31

/-- `MinimizerHit::strand`. -/
def MinimizerHit.strand (m : MinimizerHit) : Bool := (m.y >>> 63) % 2 = 1

/-- The loop state of `minimizer::extractMinimizer`: rolling codes, the
valid-prefix counter, the window queue, the last emitted candidate and the
output list. -/
structure ExtState where
  fwd : Nat
  rev : Nat
  valid : Nat
  q : Ring
  lastH : Nat
  lastPos : Nat
  hasLast : Bool
  out : List MinimizerHit

/-- One character iteration of `minimizer::extractMinimizer` (character index
`i`).  An invalid byte resets the codes, clears the queue and forgets the
last-emitted marker; a valid byte updates the codes, pushes the candidate once
`valid = k`, and, when the window is full, pops expired candidates and emits
the front if it differs from the previously emitted candidate. -/
def extractStep (k win mask shiftv : Nat) (non_canonical : Bool)
    (i : Nat) (st : ExtState) (ch : Char) : ExtState :=
  let c := nt4t ch
  if c ≥ 4 then
    { st with fwd := 0, rev := 0, valid := 0, q := st.q.clear, hasLast := false }
  else
    let fwd := ((st.fwd <<< 2) ||| c) &&& mask
    let rev := (st.rev >>> 2) ||| ((3 ^^^ c) <<< shiftv)
    let valid := if st.valid < k then st.valid + 1 else st.valid
    if valid < k then { st with fwd := fwd, rev := rev, valid := valid }
    else
      let pos := i + 1 - k
      let code := if non_canonical then fwd else min fwd rev
      let h56 := splitmix64 code >>> 8
      let q1 := st.q.push h56 pos
      if pos + 1 < win then
        { st with fwd := fwd, rev := rev, valid := valid, q := q1 }
      else
        let q2 := q1.popExpired (pos + 1 - win)
        if q2.isEmpty then
          { st with fwd := fwd, rev := rev, valid := valid, q := q2 }
        else
          let cur : Cand := { h := q2.front.h, pos := q2.front.pos }
          if st.hasLast = false ∨ cur.h ≠ st.lastH ∨ cur.pos ≠ st.lastPos then
            { fwd := fwd, rev := rev, valid := valid, q := q2,
              lastH := cur.h, lastPos := cur.pos, hasLast := true,
              out := st.out ++ [mkHit cur.h cur.pos 0
                (if non_canonical then true else fwd ≤ rev) (k % 256)] }
          else
            { st with fwd := fwd, rev := rev, valid := valid, q := q2 }

/-- The character loop of `minimizer::extractMinimizer`, threading the
character index. -/
def extractRun (k win mask shiftv : Nat) (non_canonical : Bool) :
    Nat → ExtState → List Char → ExtState
  | _, st, [] => st
  | i, st, ch :: rest =>
      extractRun k win mask shiftv non_canonical (i + 1)
        (extractStep k win mask shiftv non_canonical i st ch) rest

/-- `minimizer::extractMinimizer` from `part_005`: empty output for `k = 0`,
`w = 0`, `|seq| < k`, `k > 31` or `w ≥ 256`; otherwise slide a window of
`win = min w (n - k + 1)` k-mers over the sequence and emit window minima. -/
def extractMinimizer (seq : List Char) (k w : Nat) (non_canonical : Bool) :
    List MinimizerHit :=
  let n := seq.length
  if k = 0 ∨ w = 0 ∨ n < k then []
  else if k > 31 then []
  else if w ≥ 256 then []
  else
    let total_kmer := n - k + 1
    let win := min w total_kmer
    if win = 0 then []
    else
      let mask := (1 <<< (2 * k)) - 1
      let shiftv := 2 * (k - 1)
      (extractRun k win mask shiftv non_canonical 0
        { fwd := 0, rev := 0, valid := 0, q := Ring.init win,
          lastH := 0, lastPos := 0, hasLast := false, out := [] } seq).out

end minimizer

namespace anchor

/-- `anchor::Anchor` from `anchor.h`. -/
structure Anchor where
  hash : Nat
  rid_ref : Nat
  pos_ref : Nat
  rid_qry : Nat
  pos_qry : Nat
  span : Nat
  is_rev : Bool
deriving Repr, DecidableEq, Inhabited

/-- `anchor::SeedFilterParams` from `anchor.h` (the two `double` fractions are
modelled as exact rationals). -/
structure SeedFilterParams where
  f_top_frac : ℚ
  u_floor : Nat
  u_ceil : Nat
  q_occ_frac : ℚ
  sample_every_bp : Nat
deriving Repr, DecidableEq

/-- `anchor::default_mm2_params` from `anchor.h`. -/
def default_mm2_params : SeedFilterParams :=
  { f_top_frac := 2 / 10000, u_floor := 10, u_ceil := 1000000,
    q_occ_frac := 1 / 100, sample_every_bp := 500 }

/-- `std::numeric_limits<std::size_t>::max()` on a 64-bit platform. -/
def sizeTMax : Nat := 2 ^ 64 - 1

/-- `anchor::compute_occ_cutoff_top_frac` from `chain.cpp` (in `part_005`):
`SIZE_MAX` for an empty list, `f ≤ 0`, or `n_skip = ⌊f·n⌋ = 0`; `1` for
`f ≥ 1`; otherwise the element at index `n_skip - 1` of the occurrence list
sorted descending (the `nth_element` result). -/
def compute_occ_cutoff_top_frac (occs : List Nat) (f_top_frac : ℚ) : Nat :=
  if occs.isEmpty then sizeTMax
  else if f_top_frac ≤ 0 then sizeTMax
  else if f_top_frac ≥ 1 then 1
  else
    let n := occs.length
    let n_skip := (⌊f_top_frac * (n : ℚ)⌋).toNat
    if n_skip = 0 then sizeTMax
    else (occs.mergeSort (fun a b => b ≤ a)).getD (n_skip - 1) 0

/-- `anchor::compute_ref_occ_threshold` from `chain.cpp` (in `part_005`):
`max(u_floor, min(u_ceil, f_cutoff))`. -/
def compute_ref_occ_threshold (occs : List Nat) (p : SeedFilterParams) : Nat :=
  max p.u_floor (min p.u_ceil (compute_occ_cutoff_top_frac occs p.f_top_frac))

end anchor

namespace minimizer

/-- The strict comparator `SeedHitBase::operator<` from `seed.h`:
lexicographic on `(hash, rid, pos, strand)`. -/
def hitLt (a b : MinimizerHit) : Prop :=
  a.hash < b.hash ∨ (a.hash = b.hash ∧ (a.rid < b.rid ∨ (a.rid = b.rid ∧
    (a.pos < b.pos ∨ (a.pos = b.pos ∧ a.strand < b.strand)))))

/-- The strand bit as a number (C++ compares the `bool` values). -/
def strandNat (m : MinimizerHit) : Nat := if m.strand then 1 else 0

/-- The total preorder `¬ (b < a)` induced by `hitLt`, used as the sorting
order for `std::sort` over hits: lexicographic on
`(hash, rid, pos, strand)`. -/
def hitLeProp (a b : MinimizerHit) : Prop :=
  a.hash < b.hash ∨ (a.hash = b.hash ∧ (a.rid < b.rid ∨ (a.rid = b.rid ∧
    (a.pos < b.pos ∨ (a.pos = b.pos ∧ strandNat a ≤ strandNat b)))))

instance hitLePropDec (a b : MinimizerHit) : Decidable (hitLeProp a b) := by
  unfold hitLeProp
  infer_instance

/-- Boolean form of `hitLeProp` fed to `mergeSort`. -/
def hitLe (a b : MinimizerHit) : Bool := decide (hitLeProp a b)

/-- The run decomposition of the sorted reference hit list: the scan in
`collect_anchors` that records, for each maximal run of equal hashes, the
triple `(hash, start index, count)`. -/
def runs : List MinimizerHit → Nat → List (Nat × Nat × Nat)
  | [], _ => []
  | x :: xs, start =>
      let cnt := 1 + (xs.takeWhile (fun y => y.hash == x.hash)).length
      (x.hash, start, cnt) ::
        runs (xs.dropWhile (fun y => y.hash == x.hash)) (start + cnt)
termination_by l _ => l.length
decreasing_by
  simp only [List.length_cons]
  exact Nat.lt_succ_of_le (List.Sublist.length_le (List.dropWhile_sublist _))

/-- `hash_index.find(h)`: the `(start, count)` entry recorded for hash `h`. -/
def lookupRun (rs : List (Nat × Nat × Nat)) (h : Nat) : Option (Nat × Nat) :=
  (rs.find? (fun t => t.1 == h)).map (fun t => t.2)

/-- `minimizer::collect_anchors` from `part_005`: sort the reference hits,
index them by hash, compute the reference occurrence threshold, then for each
query hit apply (in order) the missing-hash skip, the query-side
high-frequency skip, and the sparse sampling of reference-frequent hashes,
before expanding the surviving hit into one anchor per reference occurrence
with `span = min` and `is_rev = strand XOR strand`. -/
def collect_anchors (ref_hits qry_hits : List MinimizerHit)
    (params : anchor.SeedFilterParams) : List anchor.Anchor :=
  if ref_hits.isEmpty ∨ qry_hits.isEmpty then []
  else
    let sorted_ref := ref_hits.mergeSort hitLe
    let rs := runs sorted_ref 0
    let ref_occs := rs.map (fun t => t.2.2)
    let ref_occ_thr := anchor.compute_ref_occ_threshold ref_occs params
    qry_hits.flatMap (fun qry_hit =>
      match lookupRun rs qry_hit.hash with
      | none => []
      | some (start, cnt) =>
          if params.q_occ_frac > 0 ∧
              ((qry_hits.countP (fun x => x.hash == qry_hit.hash) : ℚ) >
                params.q_occ_frac * (qry_hits.length : ℚ)) then []
          else if cnt > ref_occ_thr ∧
              (params.sample_every_bp = 0 ∨
                qry_hit.pos % params.sample_every_bp ≠ 0) then []
          else
            ((sorted_ref.drop start).take cnt).map (fun ref_hit =>
              { hash := qry_hit.hash,
                rid_ref := ref_hit.rid,
                pos_ref := ref_hit.pos,
                rid_qry := qry_hit.rid,
                pos_qry := qry_hit.pos,
                span := min ref_hit.span qry_hit.span,
                is_rev := ref_hit.strand ≠ qry_hit.strand }))

end minimizer

namespace align

open cigar

/-- The empty-side shortcut and backend dispatch of `align::globalAlignKSW2`
from `align.cpp`, parameterised by the DP core (`ksw_extz2_sse` is an external
library call): an empty `ref` yields a pure-`I` CIGAR, an empty `query` a
pure-`D` CIGAR, two empty sides the empty CIGAR. -/
def globalAlignKSW2With (core : List Char → List Char → Cigar)
    (ref query : List Char) : Cigar :=
  if ref.length = 0 ∨ query.length = 0 then
    if ref.length = 0 ∧ query.length > 0 then [mkUnit 1 query.length]
    else if query.length = 0 ∧ ref.length > 0 then [mkUnit 2 ref.length]
    else []
  else core ref query

/-- Modelled from the spec: the `ksw_extz2_sse` banded-DP core is an external
KSW2 library routine, not part of the repository sources.  Only the §4.6
facade contract is modelled — the returned CIGAR consumes exactly the whole
reference and the whole query. -/
def kswCoreModel (ref query : List Char) : Cigar :=
  let m := min ref.length query.length
  (if 0 < m then [mkUnit 0 m] else []) ++
    (if m < query.length then [mkUnit 1 (query.length - m)] else []) ++
      (if m < ref.length then [mkUnit 2 (ref.length - m)] else [])

/-- `align::globalAlignKSW2` (default configuration) from `align.cpp`, with
the external DP core modelled from the spec. -/
def globalAlignKSW2 (ref query : List Char) : Cigar :=
  globalAlignKSW2With kswCoreModel ref query

/-- Modelled from the spec: `wavefront_align`/`cigar_get_CIGAR` belong to the
external WFA2 library; `align::globalAlignWFA2` passes the full sequences
straight to them.  Only the §4.6 facade contract — the CIGAR consumes exactly
both inputs — is modelled. -/
def wfaCoreModel (ref query : List Char) : Cigar :=
  let m := min ref.length query.length
  (if 0 < m then [mkUnit 0 m] else []) ++
    (if m < query.length then [mkUnit 1 (query.length - m)] else []) ++
      (if m < ref.length then [mkUnit 2 (ref.length - m)] else [])

/-- `align::globalAlignWFA2` from `align.cpp` (no empty-side shortcut: the
library is invoked on whatever is passed). -/
def globalAlignWFA2 (ref query : List Char) : Cigar :=
  wfaCoreModel ref query

/-- The `append_segment` lambda of `align::globalAlignMM2` from `align.cpp`:
clamp the segment bounds, align the substring pair end-to-end, and if the
returned CIGAR does not consume exactly the segment, fall back to
`|qry_seg|·I` followed by `|ref_seg|·D` and advance by the nominal segment
ends; otherwise append the segment CIGAR and advance by what it consumed.
State: `(accumulated CIGAR, ref_pos, qry_pos)`. -/
def appendSegment (core : List Char → List Char → Cigar)
    (ref query : List Char) (st : Cigar × Nat × Nat) (tgt : Nat × Nat) :
    Cigar × Nat × Nat :=
  let ref_len := ref.length
  let qry_len := query.length
  let ref_start := min st.2.1 ref_len
  let ref_end0 := min tgt.1 ref_len
  let qry_start := min st.2.2 qry_len
  let qry_end0 := min tgt.2 qry_len
  let ref_end := max ref_end0 ref_start
  let qry_end := max qry_end0 qry_start
  let seg_ref := (ref.drop ref_start).take (ref_end - ref_start)
  let seg_qry := (query.drop qry_start).take (qry_end - qry_start)
  let seg_cigar := globalAlignKSW2With core seg_ref seg_qry
  let c_ref := getRefLength seg_cigar
  let c_qry := getQueryLength seg_cigar
  if c_ref ≠ seg_ref.length ∨ c_qry ≠ seg_qry.length then
    let forced := (if seg_qry.length > 0 then [mkUnit 1 seg_qry.length] else []) ++
      (if seg_ref.length > 0 then [mkUnit 2 seg_ref.length] else [])
    (appendCigar st.1 forced, ref_end, qry_end)
  else
    (appendCigar st.1 seg_cigar, ref_start + c_ref, qry_start + c_qry)

/-- The target-end pairs visited by `align::globalAlignMM2` after the chain is
sorted by `(pos_qry, pos_ref)`: for each anchor its span end, interleaved with
the start of the next anchor (the gap segment). -/
def mm2Targets : List anchor.Anchor → List (Nat × Nat)
  | [] => []
  | [a] => [(a.pos_ref + a.span, a.pos_qry + a.span)]
  | a :: b :: rest =>
      (a.pos_ref + a.span, a.pos_qry + a.span) :: (b.pos_ref, b.pos_qry) ::
        mm2Targets (b :: rest)

/-- The comparator sorting the chained anchors in `align::globalAlignMM2`. -/
def anchorLeQryRef (a b : anchor.Anchor) : Bool :=
  if a.pos_qry ≠ b.pos_qry then a.pos_qry ≤ b.pos_qry else a.pos_ref ≤ b.pos_ref

/-- The CIGAR accumulated by `align::globalAlignMM2` before its final
consistency check: left flank, anchor spans and inter-anchor gaps, right
flank, each appended with merge. -/
def mm2Acc (core : List Char → List Char → Cigar)
    (chain_anchors : List anchor.Anchor) (ref query : List Char) : Cigar :=
  let sorted := chain_anchors.mergeSort anchorLeQryRef
  let first := sorted.headD default
  let targets := (first.pos_ref, first.pos_qry) :: mm2Targets sorted ++
    [(ref.length, query.length)]
  (targets.foldl (appendSegment core ref query) ([], 0, 0)).1

/-- `align::globalAlignMM2` from `align.cpp`, parameterised by the DP core and
by the result of `anchor::chainAnchors` (an external declaration whose body is
not among the sources; the theorem below quantifies over every possible chain
result).  An empty chain falls back to the plain global alignment, and so does
any accumulated CIGAR whose total consumed lengths do not match the input
lengths. -/
def globalAlignMM2With (core : List Char → List Char → Cigar)
    (chain_anchors : List anchor.Anchor) (ref query : List Char) : Cigar :=
  if chain_anchors.isEmpty then globalAlignKSW2With core ref query
  else
    let result := mm2Acc core chain_anchors ref query
    if getRefLength result ≠ ref.length ∨ getQueryLength result ≠ query.length then
      globalAlignKSW2With core ref query
    else result

end align

namespace align

/-- `seq_io::SeqRecord` (id and sequence; description/quality play no role in
the worker). -/
structure SeqRecord where
  id : String
  seq : List Char
deriving Repr, DecidableEq, Inhabited

/-- Modelled from the spec: `seq_io::makeSamRecord` is not among the sources;
§6 fixes the record fields the worker fills in
(`qname, flag, rname, pos, mapq, cigar`). -/
structure SamRecord where
  qname : String
  flag : Nat
  rname : String
  pos : Nat
  mapq : Nat
  cigar : String
deriving Repr, DecidableEq

/-- Modelled from the spec: build a SAM record from a query record (§6). -/
def makeSamRecord (q : SeqRecord) (rname : String) (cigar_str : String)
    (pos mapq flag : Nat) : SamRecord :=
  { qname := q.id, flag := flag, rname := rname, pos := pos, mapq := mapq,
    cigar := cigar_str }

/-- Which of the two per-worker writers a record goes to: `out` (the
non-insertion stream) or `out_insertion`. -/
inductive Route
| plain
| insertion
deriving Repr, DecidableEq

/-- The read-only `RefAligner` state a worker consults
(`ref_sequences`, `ref_sketch`, `consensus_seq` and the sketch parameters). -/
structure RefAlignerState where
  ref_sequences : List SeqRecord
  ref_sketch : List mash.Sketch
  consensus : SeqRecord
  kmer_size : Nat
  sketch_size : Nat
  noncanonical : Bool
deriving Repr

/-- The best-reference linear scan of `RefAligner::alignOneQueryToRef`
(`part_003`): fold over the reference sketches with `(best_j, best_r)`
starting at `(-1, 0)`, updating on a strictly larger Jaccard value.  A
`jaccard` failure propagates, as the C++ exception would. -/
def chooseBestAux (qsk : mash.Sketch) :
    List mash.Sketch → Nat → ℚ → Nat → Except String (ℚ × Nat)
  | [], _, best_j, best_r => .ok (best_j, best_r)
  | sk :: rest, r, best_j, best_r => do
      let j ← mash.jaccard qsk sk
      if j > best_j then chooseBestAux qsk rest (r + 1) j r
      else chooseBestAux qsk rest (r + 1) best_j best_r

/-- The query sketch computed by the worker.  The call site passes
`(q.seq, kmer_size, sketch_size, noncanonical, random_seed)` through the
`mash.h` header, which is not among the sources; following spec §4.7.2 the
parameters map to `sketch(seq, k, s, noncanonical, seed)` (the `w` slot of the
5-parameter definition in `mash.cpp` is unused there). -/
def workerSketch (A : RefAlignerState) (s : List Char) : mash.Sketch :=
  mash.sketchFromSequence s A.kmer_size 0 A.sketch_size A.noncanonical

/-- The index of the best reference chosen for a query. -/
def bestRefIndex (A : RefAlignerState) (q : SeqRecord) : Except String Nat :=
  (chooseBestAux (workerSketch A q.seq) A.ref_sketch 0 (-1) 0).map (fun t => t.2)

/-- `RefAligner::alignOneQueryToRef` from `part_003` (the two-writer overload
declared in `align.h`), parameterised by the wavefront aligner
(`globalAlignWFA2` calls the external WFA2 library): sketch the query, choose
the best reference, align; without an insertion emit to the non-insertion
writer against the best reference; otherwise re-align against the consensus,
keep the recheck CIGAR if it is non-empty, and route by `hasInsertion` of
the final CIGAR with the consensus id as `rname`. -/
def alignOneQueryRouted (wf : List Char → List Char → cigar.Cigar)
    (A : RefAlignerState) (q : SeqRecord) (best_ref : SeqRecord) :
    Route × SamRecord :=
  let initial_cigar := wf best_ref.seq q.seq
  if ¬ cigar.hasInsertion initial_cigar then
    (Route.plain,
      makeSamRecord q best_ref.id (cigar.cigarToString initial_cigar) 1 60 0)
  else
    let recheck_cigar := wf A.consensus.seq q.seq
    let final_cigar := if recheck_cigar.isEmpty then initial_cigar else recheck_cigar
    if cigar.hasInsertion final_cigar then
      (Route.insertion,
        makeSamRecord q A.consensus.id (cigar.cigarToString final_cigar) 1 60 0)
    else
      (Route.plain,
        makeSamRecord q A.consensus.id (cigar.cigarToString final_cigar) 1 60 0)

/-- The whole worker step: choose the best reference (propagating a `jaccard`
failure, as the C++ exception would), then route the record. -/
def alignOneQueryToRef (wf : List Char → List Char → cigar.Cigar)
    (A : RefAlignerState) (q : SeqRecord) : Except String (Route × SamRecord) := do
  let best_r ← bestRefIndex A q
  .ok (alignOneQueryRouted wf A q (A.ref_sequences.getD best_r default))

end align

section UnitLemmas

open cigar

/-- Packing arithmetic: `(len << 4) | code` is `16·len + code` for a 4-bit
code. -/
theorem shiftOr_eq (a c : Nat) (h : c < 16) : ((a <<< 4) ||| c) = 16 * a + c := by
  apply Nat.eq_of_testBit_eq
  intro i
  rw [Nat.testBit_lor, Nat.testBit_shiftLeft]
  have hdecomp : 16 * a + c = 2 ^ 4 * a + c := by ring
  rw [hdecomp, Nat.testBit_mul_pow_two_add a (show c < 2 ^ 4 by omega) i]
  rcases Nat.lt_or_ge i 4 with hi | hi
  · have h4 : ¬ (4 ≤ i) := by omega
    simp [h4, hi]
  · have hc : c.testBit i = false := Nat.testBit_eq_false_of_lt (by
      calc c < 16 := h
      _ = 2 ^ 4 := by norm_num
      _ ≤ 2 ^ i := Nat.pow_le_pow_right (by omega) hi)
    simp [hi, hc, Nat.not_lt_of_ge hi]

theorem mkUnit_eq (code len : Nat) (h : code < 16) :
    mkUnit code len = 16 * len + code := by
  have hand : code &&& 15 = code := by
    have := Nat.and_pow_two_sub_one_eq_mod code 4
    simpa [Nat.mod_eq_of_lt h] using this
  unfold mkUnit
  rw [show (0xF : Nat) = 15 from rfl, hand, shiftOr_eq len code h]

theorem mkUnit_land (code len : Nat) (h : code < 16) :
    mkUnit code len &&& 0xF = code := by
  rw [mkUnit_eq code len h]
  have := Nat.and_pow_two_sub_one_eq_mod (16 * len + code) 4
  have hmod : (16 * len + code) % 16 = code := by omega
  simpa [hmod] using this

theorem mkUnit_shiftRight (code len : Nat) (h : code < 16) :
    mkUnit code len >>> 4 = len := by
  rw [mkUnit_eq code len h, Nat.shiftRight_eq_div_pow]
  have h16 : (2 : Nat) ^ 4 = 16 := by norm_num
  rw [h16, Nat.add_comm, Nat.add_mul_div_left _ _ (by norm_num : 0 < 16),
    Nat.div_eq_of_lt h]
  exact Nat.zero_add len

/-- An operation character is unknown to the encoder exactly when it is not
one of the nine SAM opcodes. -/
theorem opCharToCode_sentinel (op : Char) :
    opCharToCode op = 4294967295 ↔
      op ∉ (['M', 'I', 'D', 'N', 'S', 'H', 'P', '=', 'X'] : List Char) := by
  unfold opCharToCode
  split <;> simp_all

theorem opCharToCode_lt (op : Char)
    (h : op ∈ (['M', 'I', 'D', 'N', 'S', 'H', 'P', '=', 'X'] : List Char)) :
    opCharToCode op < 16 ∧ opCodeToChar (opCharToCode op) = op := by
  fin_cases h <;> simp [opCharToCode, opCodeToChar]

end UnitLemmas

section C9

open cigar

/-- C9.  For every op character among the nine SAM opcodes and every
`len < 2^28`, `intToCigar (cigarToInt op len) = (op, len)`; the encoder fails
exactly when `len ≥ 2^28` or the character is unknown; and a unit whose low
4 bits are an opcode outside `0..8` decodes to `'?'` instead of failing. -/
theorem c9_cigar_unit_codec (op : Char) (len u : Nat) :
    (op ∈ (['M', 'I', 'D', 'N', 'S', 'H', 'P', '=', 'X'] : List Char) →
      len < 2 ^ 28 →
      ∃ v, cigarToInt op len = .ok v ∧ intToCigar v = (op, len)) ∧
    ((∃ v, cigarToInt op len = Except.ok v) ↔
      (len < 2 ^ 28 ∧
        op ∈ (['M', 'I', 'D', 'N', 'S', 'H', 'P', '=', 'X'] : List Char))) ∧
    (8 < u &&& 0xF → (intToCigar u).1 = '?') := by
  refine ⟨?_, ?_, ?_⟩
  · intro hop hlen
    obtain ⟨hlt, hchar⟩ := opCharToCode_lt op hop
    have hsent : ¬ opCharToCode op = 4294967295 := by omega
    refine ⟨mkUnit (opCharToCode op) len, ?_, ?_⟩
    · unfold cigarToInt
      have : ¬ len > kMaxLen := by unfold kMaxLen; omega
      simp [this, hsent]
    · unfold intToCigar
      rw [mkUnit_land _ _ hlt, mkUnit_shiftRight _ _ hlt, hchar]
  · constructor
    · rintro ⟨v, hv⟩
      unfold cigarToInt at hv
      by_cases h1 : len > kMaxLen
      · simp [h1] at hv
      · by_cases h2 : opCharToCode op = 4294967295
        · simp [h1, h2] at hv
        · have hmem := (not_iff_not.mpr (opCharToCode_sentinel op)).mp h2
          have : len < 2 ^ 28 := by unfold kMaxLen at h1; omega
          exact ⟨this, not_not.mp hmem⟩
    · rintro ⟨hlen, hop⟩
      obtain ⟨hlt, _⟩ := opCharToCode_lt op hop
      have hsent : ¬ opCharToCode op = 4294967295 := by omega
      have h1 : ¬ len > kMaxLen := by unfold kMaxLen; omega
      exact ⟨mkUnit (opCharToCode op) len, by unfold cigarToInt; simp [h1, hsent]⟩
  · intro hbad
    show opCodeToChar (u &&& 0xF) = '?'
    unfold opCodeToChar
    split <;> first | rfl | omega

/-- Witness for C9 at `op = 'I'`, `len = 5`, `u = 31` (low bits `15`). -/
theorem c9_cigar_unit_codec_witness :
    (cigarToInt 'I' 5 = .ok (mkUnit 1 5) ∧ intToCigar (mkUnit 1 5) = ('I', 5)) ∧
      (intToCigar 31).1 = '?' := by
  have h := c9_cigar_unit_codec 'I' 5 31
  obtain ⟨h1, _, h3⟩ := h
  obtain ⟨v, hv1, hv2⟩ := h1 (by simp) (by norm_num)
  have hval : cigarToInt 'I' 5 = .ok (mkUnit 1 5) := rfl
  have hv : v = mkUnit 1 5 := Except.ok.inj (hv1 ▸ hval)
  refine ⟨⟨hval, ?_⟩, h3 (by decide)⟩
  rw [← hv]
  exact hv2

end C9

section C4

/-- C4.  The hashing-side encoder `mash::nt4` maps the bases as the claim
states (`T`, `t`, `U`, `u` to 3, other bytes to 4), and an invalid byte does
reset the rolling codes; but the table `minimizer::nt4_table` used by the
minimizer extractor diverges from the claim (and from its own documentation):
`'T'`, `'U'` and every lowercase base map to the invalid code 4, while the
stray bytes `0x5C` and `0x6A` receive codes 3 and 0. -/
theorem c4_nt4_table_divergence :
    (mash.nt4 'A' = 0 ∧ mash.nt4 'a' = 0 ∧ mash.nt4 'C' = 1 ∧ mash.nt4 'c' = 1 ∧
      mash.nt4 'G' = 2 ∧ mash.nt4 'g' = 2 ∧ mash.nt4 'T' = 3 ∧ mash.nt4 't' = 3 ∧
      mash.nt4 'U' = 3 ∧ mash.nt4 'u' = 3 ∧ mash.nt4 'N' = 4 ∧ mash.nt4 '-' = 4) ∧
    (minimizer.nt4t 'A' = 0 ∧ minimizer.nt4t 'C' = 1 ∧ minimizer.nt4t 'G' = 2 ∧
      minimizer.nt4t 'T' = 4 ∧ minimizer.nt4t 'U' = 4 ∧ minimizer.nt4t 'a' = 4 ∧
      minimizer.nt4t 't' = 4 ∧ minimizer.nt4t (Char.ofNat 92) = 3 ∧
      minimizer.nt4t (Char.ofNat 93) = 3 ∧ minimizer.nt4t 'j' = 0 ∧
      minimizer.nt4t 'l' = 1 ∧ minimizer.nt4t 'p' = 2) ∧
    (∀ k mask shiftv fb fwd rev valid hs,
      mash.sketchStep k mask shiftv fb (fwd, rev, valid, hs) 'N' = (0, 0, 0, hs)) ∧
    (∀ k win mask shiftv nc i st,
      minimizer.extractStep k win mask shiftv nc i st 'N' =
        { st with fwd := 0, rev := 0, valid := 0, q := st.q.clear,
                  hasLast := false }) := by
  refine ⟨by decide, by decide, ?_, ?_⟩
  · intro k mask shiftv fb fwd rev valid hs
    rfl
  · intro k win mask shiftv nc i st
    rfl

end C4

section InterLemmas

open mash

theorem inter_comm_pt (a b : List Nat) :
    intersectionSizeSortedUnique a b = intersectionSizeSortedUnique b a := by
  induction a, b using intersectionSizeSortedUnique.induct with
  | case1 b => cases b <;> simp [intersectionSizeSortedUnique]
  | case2 a as => simp [intersectionSizeSortedUnique]
  | case3 as b bs ih => simp [intersectionSizeSortedUnique, ih]
  | case4 a as b bs hne hlt ih =>
      rw [intersectionSizeSortedUnique, intersectionSizeSortedUnique]
      have hne2 : ¬ b = a := fun h => hne h.symm
      have hnlt : ¬ b < a := by omega
      simp [hne, hlt, hne2, hnlt, ih]
  | case5 a as b bs hne hnlt ih =>
      rw [intersectionSizeSortedUnique, intersectionSizeSortedUnique]
      have hne2 : ¬ b = a := fun h => hne h.symm
      have hlt2 : b < a := by omega
      simp [hne, hnlt, hne2, hlt2, ih]

theorem inter_le_lengths (a b : List Nat) :
    intersectionSizeSortedUnique a b ≤ a.length ∧
      intersectionSizeSortedUnique a b ≤ b.length := by
  induction a, b using intersectionSizeSortedUnique.induct with
  | case1 b => simp [intersectionSizeSortedUnique]
  | case2 a as => simp [intersectionSizeSortedUnique]
  | case3 as b bs ih => simp [intersectionSizeSortedUnique]; omega
  | case4 a as b bs hne hlt ih =>
      rw [intersectionSizeSortedUnique]
      simp [hne, hlt]
      simp at ih ⊢
      omega
  | case5 a as b bs hne hnlt ih =>
      rw [intersectionSizeSortedUnique]
      simp [hne, hnlt]
      simp at ih ⊢
      omega

theorem inter_self_eq (a : List Nat) :
    intersectionSizeSortedUnique a a = a.length := by
  induction a with
  | nil => simp [intersectionSizeSortedUnique]
  | cons x xs ih => simp [intersectionSizeSortedUnique, ih]

theorem inter_disjoint_eq_zero (a b : List Nat) (h : ∀ x ∈ a, x ∉ b) :
    intersectionSizeSortedUnique a b = 0 := by
  induction a, b using intersectionSizeSortedUnique.induct with
  | case1 b => simp [intersectionSizeSortedUnique]
  | case2 a as => simp [intersectionSizeSortedUnique]
  | case3 as b bs ih =>
      exact absurd (List.mem_cons_self b bs) (h b (List.mem_cons_self b as))
  | case4 a as b bs hne hlt ih =>
      rw [intersectionSizeSortedUnique, if_neg hne, if_pos hlt]
      exact ih (fun x hx => h x (List.mem_cons_of_mem a hx))
  | case5 a as b bs hne hnlt ih =>
      rw [intersectionSizeSortedUnique, if_neg hne, if_neg hnlt]
      exact ih (fun x hx hxb => h x hx (List.mem_cons_of_mem b hxb))

theorem inter_sorted_eq_filter : ∀ (a b : List Nat),
    a.Sorted (· < ·) → b.Sorted (· < ·) →
    intersectionSizeSortedUnique a b =
      (a.filter (fun x => decide (x ∈ b))).length := by
  intro a b
  induction a, b using intersectionSizeSortedUnique.induct with
  | case1 b => intro _ _; simp [intersectionSizeSortedUnique]
  | case2 a as => intro _ _; simp [intersectionSizeSortedUnique]
  | case3 as b bs ih =>
      intro ha hb
      rw [List.sorted_cons] at ha hb
      have hfc : as.filter (fun x => decide (x ∈ b :: bs)) =
          as.filter (fun x => decide (x ∈ bs)) := by
        apply List.filter_congr
        intro x hx
        have hbx : b < x := ha.1 x hx
        simp only [List.mem_cons, decide_eq_decide]
        constructor
        · rintro (h | h)
          · omega
          · exact h
        · exact Or.inr
      have hcons : (b :: as).filter (fun x => decide (x ∈ b :: bs)) =
          b :: as.filter (fun x => decide (x ∈ b :: bs)) :=
        List.filter_cons_of_pos (by simp)
      rw [intersectionSizeSortedUnique, if_pos rfl, hcons, hfc, List.length_cons,
        ih ha.2 hb.2]
  | case4 a as b bs hne hlt ih =>
      intro ha hb
      rw [List.sorted_cons] at ha
      have hmem : ¬ (a ∈ b :: bs) := by
        rw [List.sorted_cons] at hb
        simp only [List.mem_cons]
        rintro (h | h)
        · omega
        · have := hb.1 a h
          omega
      have hcons : (a :: as).filter (fun x => decide (x ∈ b :: bs)) =
          as.filter (fun x => decide (x ∈ b :: bs)) :=
        List.filter_cons_of_neg (by simpa using hmem)
      rw [intersectionSizeSortedUnique, if_neg hne, if_pos hlt, hcons, ih ha.2 hb]
  | case5 a as b bs hne hnlt ih =>
      intro ha hb
      rw [List.sorted_cons] at hb
      have hfc : (a :: as).filter (fun x => decide (x ∈ b :: bs)) =
          (a :: as).filter (fun x => decide (x ∈ bs)) := by
        apply List.filter_congr
        intro x hx
        have hax : a ≤ x := by
          rcases List.mem_cons.mp hx with h | h
          · omega
          · rw [List.sorted_cons] at ha
            have := ha.1 x h
            omega
        simp only [List.mem_cons, decide_eq_decide]
        constructor
        · rintro (h | h)
          · omega
          · exact h
        · exact Or.inr
      rw [intersectionSizeSortedUnique, if_neg hne, if_neg hnlt, hfc, ih ha hb.2]

/-- On sorted duplicate-free lists the two-pointer count is the cardinality of
the set intersection. -/
theorem inter_sorted_eq_card (a b : List Nat)
    (ha : a.Sorted (· < ·)) (hb : b.Sorted (· < ·)) :
    intersectionSizeSortedUnique a b = (a.toFinset ∩ b.toFinset).card := by
  rw [inter_sorted_eq_filter a b ha hb]
  have hnd : a.Nodup := ha.nodup
  have hndf : (a.filter (fun x => decide (x ∈ b))).Nodup := hnd.filter _
  rw [← List.toFinset_card_of_nodup hndf, List.toFinset_filter]
  congr 1
  ext x
  simp [List.mem_toFinset]

end InterLemmas

section C8

open mash

/-- Evaluation of `jaccard` on the main (both non-empty, equal `k`) path. -/
theorem jaccard_eval (a b : Sketch) (hk : a.k = b.k) (ha : a.hashes ≠ [])
    (hb : b.hashes ≠ [])
    (hne0 : a.hashes.length + b.hashes.length -
      intersectionSizeSortedUnique a.hashes b.hashes ≠ 0) :
    jaccard a b = .ok ((intersectionSizeSortedUnique a.hashes b.hashes : ℚ) /
      ((a.hashes.length + b.hashes.length -
        intersectionSizeSortedUnique a.hashes b.hashes : ℕ) : ℚ)) := by
  unfold jaccard
  rw [if_neg (show ¬ a.k ≠ b.k by simp [hk]),
    if_neg (show ¬ (a.hashes.isEmpty = true ∧ b.hashes.isEmpty = true) by
      simp [List.isEmpty_iff, ha]),
    if_neg (show ¬ (a.hashes.isEmpty = true ∨ b.hashes.isEmpty = true) by
      simp [List.isEmpty_iff, ha, hb])]
  simp only [if_neg hne0]

/-- C8.  `jaccard` fails exactly on mismatched `k`; both hash sets empty gives
`1`, exactly one empty gives `0`; on sorted duplicate-free hash lists the
value is `|A∩B| / |A∪B|`; the function is symmetric, every returned value lies
in `[0,1]`, a sketch against itself scores `1`, and disjoint non-empty hash
sets score `0`. -/
theorem c8_jaccard_contract (a b : Sketch) :
    ((∃ e, jaccard a b = .error e) ↔ a.k ≠ b.k) ∧
    (a.k = b.k → a.hashes = [] → b.hashes = [] → jaccard a b = .ok 1) ∧
    (a.k = b.k →
      ((a.hashes = [] ∧ b.hashes ≠ []) ∨ (a.hashes ≠ [] ∧ b.hashes = [])) →
      jaccard a b = .ok 0) ∧
    (a.k = b.k → a.hashes.Sorted (· < ·) → b.hashes.Sorted (· < ·) →
      a.hashes ≠ [] → b.hashes ≠ [] →
      jaccard a b = .ok
        (((a.hashes.toFinset ∩ b.hashes.toFinset).card : ℚ) /
          ((a.hashes.toFinset ∪ b.hashes.toFinset).card : ℚ))) ∧
    jaccard a b = jaccard b a ∧
    (∀ q, jaccard a b = .ok q → 0 ≤ q ∧ q ≤ 1) ∧
    jaccard a a = .ok 1 ∧
    (a.k = b.k → (∀ x ∈ a.hashes, x ∉ b.hashes) →
      a.hashes ≠ [] → b.hashes ≠ [] → jaccard a b = .ok 0) := by
  have hle := inter_le_lengths a.hashes b.hashes
  refine ⟨?_, ?_, ?_, ?_, ?_, ?_, ?_, ?_⟩
  · by_cases hk : a.k = b.k
    · constructor
      · rintro ⟨e, he⟩
        simp only [jaccard, if_neg (show ¬ a.k ≠ b.k by simp [hk])] at he
        split at he
        · exact absurd he (by simp)
        · split at he
          · exact absurd he (by simp)
          · split at he
            · exact absurd he (by simp)
            · exact absurd he (by simp)
      · intro h
        exact absurd hk h
    · refine ⟨fun _ => hk, fun _ => ?_⟩
      exact ⟨"mash::jaccard: mismatched k", by simp [jaccard, hk]⟩
  · intro hk ha hb
    simp [jaccard, hk, ha, hb]
  · rintro hk (⟨ha, hb⟩ | ⟨ha, hb⟩) <;>
      simp [jaccard, hk, ha, hb, List.isEmpty_iff]
  · intro hk hsa hsb ha hb
    have hcard : intersectionSizeSortedUnique a.hashes b.hashes =
        (a.hashes.toFinset ∩ b.hashes.toFinset).card :=
      inter_sorted_eq_card _ _ hsa hsb
    have hca : a.hashes.toFinset.card = a.hashes.length :=
      List.toFinset_card_of_nodup hsa.nodup
    have hcb : b.hashes.toFinset.card = b.hashes.length :=
      List.toFinset_card_of_nodup hsb.nodup
    have hunion := Finset.card_union_add_card_inter a.hashes.toFinset b.hashes.toFinset
    have hlen : 0 < a.hashes.length := List.length_pos.mpr ha
    have hne0 : a.hashes.length + b.hashes.length -
        intersectionSizeSortedUnique a.hashes b.hashes ≠ 0 := by omega
    rw [jaccard_eval a b hk ha hb hne0, hcard]
    have huni : a.hashes.length + b.hashes.length -
        (a.hashes.toFinset ∩ b.hashes.toFinset).card =
        (a.hashes.toFinset ∪ b.hashes.toFinset).card := by omega
    rw [huni]
  · by_cases hk : a.k = b.k
    · by_cases ha : a.hashes = [] <;> by_cases hb : b.hashes = []
      · simp [jaccard, hk, ha, hb]
      · simp [jaccard, hk, ha, hb, List.isEmpty_iff]
      · simp [jaccard, hk, ha, hb, List.isEmpty_iff]
      · have hle2 := inter_le_lengths b.hashes a.hashes
        have hla : 0 < a.hashes.length := List.length_pos.mpr ha
        have hne0 : a.hashes.length + b.hashes.length -
            intersectionSizeSortedUnique a.hashes b.hashes ≠ 0 := by omega
        have hne0b : b.hashes.length + a.hashes.length -
            intersectionSizeSortedUnique b.hashes a.hashes ≠ 0 := by
          rw [inter_comm_pt b.hashes a.hashes]
          omega
        rw [jaccard_eval a b hk ha hb hne0, jaccard_eval b a hk.symm hb ha hne0b,
          inter_comm_pt b.hashes a.hashes, Nat.add_comm b.hashes.length]
    · have hk2 : ¬ b.k = a.k := fun h => hk h.symm
      simp [jaccard, hk, hk2]
  · intro q hq
    simp only [jaccard] at hq
    split at hq
    · exact absurd hq (by simp)
    · split at hq
      · simp only [Except.ok.injEq] at hq
        subst hq
        norm_num
      · split at hq
        · simp only [Except.ok.injEq] at hq
          subst hq
          norm_num
        · split at hq
          · simp only [Except.ok.injEq] at hq
            subst hq
            norm_num
          · simp only [Except.ok.injEq] at hq
            subst hq
            constructor
            · positivity
            · apply div_le_one_of_le₀
              · apply Nat.cast_le.mpr
                omega
              · positivity
  · by_cases ha : a.hashes = []
    · simp [jaccard, ha]
    · have hlen : 0 < a.hashes.length := List.length_pos.mpr ha
      have hself := inter_self_eq a.hashes
      have hne0 : a.hashes.length + a.hashes.length -
          intersectionSizeSortedUnique a.hashes a.hashes ≠ 0 := by omega
      rw [jaccard_eval a a rfl ha ha hne0, hself]
      have h1 : (a.hashes.length + a.hashes.length - a.hashes.length) =
          a.hashes.length := by omega
      rw [h1]
      congr 1
      exact div_self (by positivity)
  · intro hk hdis ha hb
    have hz := inter_disjoint_eq_zero a.hashes b.hashes hdis
    have hlen : 0 < a.hashes.length := List.length_pos.mpr ha
    have hne0 : a.hashes.length + b.hashes.length -
        intersectionSizeSortedUnique a.hashes b.hashes ≠ 0 := by omega
    rw [jaccard_eval a b hk ha hb hne0, hz]
    simp

/-- Witness for C8 at two concrete sketches with `k = 3`. -/
theorem c8_jaccard_contract_witness :
    jaccard { k := 3, hashes := [1, 5] } { k := 3, hashes := [5, 9] } =
      .ok (((([1, 5] : List Nat).toFinset ∩ ([5, 9] : List Nat).toFinset).card : ℚ) /
        ((([1, 5] : List Nat).toFinset ∪ ([5, 9] : List Nat).toFinset).card : ℚ)) ∧
    jaccard { k := 3, hashes := [1, 5] } { k := 3, hashes := [7] } = .ok 0 := by
  have h1 := c8_jaccard_contract { k := 3, hashes := [1, 5] } { k := 3, hashes := [5, 9] }
  have h2 := c8_jaccard_contract { k := 3, hashes := [1, 5] } { k := 3, hashes := [7] }
  constructor
  · exact h1.2.2.2.1 rfl (by simp) (by simp) (by simp) (by simp)
  · exact h2.2.2.2.2.2.2.2 rfl (by decide) (by simp) (by simp)

end C8

section C7

open mash

theorem uniqAdj_subset : ∀ (l : List Nat) (x : Nat), x ∈ uniqAdj l → x ∈ l := by
  intro l
  induction l using uniqAdj.induct with
  | case1 => intro x hx; simp [uniqAdj] at hx
  | case2 a => intro x hx; simpa [uniqAdj] using hx
  | case3 b rest ih =>
      intro x hx
      rw [uniqAdj, if_pos rfl] at hx
      have hm := ih x hx
      simp only [List.mem_cons] at hm ⊢
      tauto
  | case4 a b rest hab ih =>
      intro x hx
      rw [uniqAdj, if_neg hab] at hx
      rcases List.mem_cons.mp hx with h | h
      · simp [h]
      · have := ih x h
        simp [List.mem_cons] at this ⊢
        tauto

theorem uniqAdj_sorted : ∀ (l : List Nat), l.Sorted (· ≤ ·) →
    (uniqAdj l).Sorted (· < ·) := by
  intro l
  induction l using uniqAdj.induct with
  | case1 => intro _; simp [uniqAdj]
  | case2 a => intro _; simp [uniqAdj]
  | case3 b rest ih =>
      intro hs
      rw [uniqAdj, if_pos rfl]
      apply ih
      rw [List.sorted_cons] at hs
      exact hs.2
  | case4 a b rest hab ih =>
      intro hs
      rw [uniqAdj, if_neg hab]
      rw [List.sorted_cons] at hs ⊢
      refine ⟨?_, ih hs.2⟩
      intro y hy
      have hyin : y ∈ b :: rest := uniqAdj_subset _ y hy
      have hab2 : a < b := by
        have := hs.1 b (List.mem_cons_self b rest)
        omega
      rcases List.mem_cons.mp hyin with h | h
      · omega
      · rw [List.sorted_cons] at hs
        have := hs.2.1 y h
        omega

/-- C7 (amended).  The sketch is empty whenever `k = 0`, `s = 0`, `k > 31` or
`|seq| < k`; the hash list is always strictly ascending (hence
duplicate-free), its length never exceeds `s`, and the recorded `k` is the
input `k`. -/
theorem c7_sketch_contract (seq : List Char) (k w s : Nat) (fb : Bool) :
    ((k = 0 ∨ s = 0 ∨ k > 31 ∨ seq.length < k) →
      (sketchFromSequence seq k w s fb).hashes = []) ∧
    (sketchFromSequence seq k w s fb).hashes.Sorted (· < ·) ∧
    (sketchFromSequence seq k w s fb).hashes.length ≤ s ∧
    (sketchFromSequence seq k w s fb).k = k := by
  refine ⟨?_, ?_, ?_, ?_⟩
  · intro h
    unfold sketchFromSequence
    rcases h with h | h | h | h
    · simp [h]
    · simp [h]
    · by_cases h1 : k = 0 ∨ s = 0
      · simp [h1]
      · rw [if_neg h1]
        by_cases h2 : seq.length < k
        · simp [h2]
        · rw [if_neg h2, if_pos h]
    · by_cases h1 : k = 0 ∨ s = 0
      · simp [h1]
      · rw [if_neg h1, if_pos h]
  · unfold sketchFromSequence
    split
    · simp
    · split
      · simp
      · split
        · simp
        · refine List.Pairwise.sublist (List.take_sublist _ _) ?_
          exact uniqAdj_sorted _ (List.sorted_mergeSort' _)
  · unfold sketchFromSequence
    split
    · simp
    · split
      · simp
      · split
        · simp
        · simp
  · unfold sketchFromSequence
    split
    · rfl
    · split
      · rfl
      · split
        · rfl
        · rfl

/-- Witness for C7 at `seq = "ACGT"`, `k = 2`, `s = 3`. -/
theorem c7_sketch_contract_witness :
    (sketchFromSequence ['A'] 2 0 3 true).hashes = [] ∧
    (sketchFromSequence ['A', 'C', 'G', 'T'] 2 0 3 true).hashes.Sorted (· < ·) ∧
    (sketchFromSequence ['A', 'C', 'G', 'T'] 2 0 3 true).hashes.length ≤ 3 := by
  have h1 := c7_sketch_contract ['A'] 2 0 3 true
  have h2 := c7_sketch_contract ['A', 'C', 'G', 'T'] 2 0 3 true
  exact ⟨h1.1 (by simp), h2.2.1, h2.2.2.1⟩

/-- C7 counterexample to the claim as stated: for `seq = "NN"`, `k = 2`,
`s = 10` none of the four rejection conditions holds, yet the sketch is empty
(an all-invalid sequence yields no valid k-mer). -/
theorem c7_sketch_counterexample :
    (sketchFromSequence ['N', 'N'] 2 0 10 true).hashes = [] ∧
    ¬ (2 = 0 ∨ 10 = 0 ∨ 2 > 31 ∨ (['N', 'N'] : List Char).length < 2) := by
  constructor
  · have hstep : ∀ (m sh : Nat) (st : Nat × Nat × Nat × List Nat),
        mash.sketchStep 2 m sh true st 'N' = (0, 0, 0, st.2.2.2) :=
      fun m sh st => rfl
    unfold sketchFromSequence
    norm_num
    rw [hstep, hstep]
    simp [uniqAdj]
  · decide

end C7

section LengthLemmas

open cigar

theorem getRefLength_eq_sum (c : Cigar) :
    getRefLength c = (c.map refContrib).sum := by
  have haux : ∀ (l : Cigar) (a : Nat),
      l.foldl (fun acc u =>
        let op := u &&& 0xF
        if op = 0 ∨ op = 2 ∨ op = 3 ∨ op = 7 ∨ op = 8 then acc + (u >>> 4) else acc) a =
      a + (l.map refContrib).sum := by
    intro l
    induction l with
    | nil => intro a; simp
    | cons u rest ih =>
        intro a
        simp only [List.foldl_cons, List.map_cons, List.sum_cons]
        rw [ih]
        by_cases hcond : u &&& 0xF = 0 ∨ u &&& 0xF = 2 ∨ u &&& 0xF = 3 ∨
            u &&& 0xF = 7 ∨ u &&& 0xF = 8
        · simp only [refContrib, hcond, if_true, if_pos hcond]
          omega
        · simp only [refContrib, hcond, if_false, if_neg hcond]
          omega
  exact (haux c 0).trans (by omega)

theorem getQueryLength_eq_sum (c : Cigar) :
    getQueryLength c = (c.map qryContrib).sum := by
  have haux : ∀ (l : Cigar) (a : Nat),
      l.foldl (fun acc u =>
        let op := u &&& 0xF
        if op = 0 ∨ op = 1 ∨ op = 4 ∨ op = 7 ∨ op = 8 then acc + (u >>> 4) else acc) a =
      a + (l.map qryContrib).sum := by
    intro l
    induction l with
    | nil => intro a; simp
    | cons u rest ih =>
        intro a
        simp only [List.foldl_cons, List.map_cons, List.sum_cons]
        rw [ih]
        by_cases hcond : u &&& 0xF = 0 ∨ u &&& 0xF = 1 ∨ u &&& 0xF = 4 ∨
            u &&& 0xF = 7 ∨ u &&& 0xF = 8
        · simp only [qryContrib, hcond, if_true, if_pos hcond]
          omega
        · simp only [qryContrib, hcond, if_false, if_neg hcond]
          omega
  exact (haux c 0).trans (by omega)

theorem refContrib_mkUnit_M (n : Nat) : refContrib (mkUnit 0 n) = n := by
  unfold refContrib
  rw [mkUnit_land 0 n (by norm_num), mkUnit_shiftRight 0 n (by norm_num)]
  simp

theorem refContrib_mkUnit_I (n : Nat) : refContrib (mkUnit 1 n) = 0 := by
  unfold refContrib
  rw [mkUnit_land 1 n (by norm_num)]
  simp

theorem refContrib_mkUnit_D (n : Nat) : refContrib (mkUnit 2 n) = n := by
  unfold refContrib
  rw [mkUnit_land 2 n (by norm_num), mkUnit_shiftRight 2 n (by norm_num)]
  simp

theorem qryContrib_mkUnit_M (n : Nat) : qryContrib (mkUnit 0 n) = n := by
  unfold qryContrib
  rw [mkUnit_land 0 n (by norm_num), mkUnit_shiftRight 0 n (by norm_num)]
  simp

theorem qryContrib_mkUnit_I (n : Nat) : qryContrib (mkUnit 1 n) = n := by
  unfold qryContrib
  rw [mkUnit_land 1 n (by norm_num), mkUnit_shiftRight 1 n (by norm_num)]
  simp

theorem qryContrib_mkUnit_D (n : Nat) : qryContrib (mkUnit 2 n) = 0 := by
  unfold qryContrib
  rw [mkUnit_land 2 n (by norm_num)]
  simp

/-- The modelled cores meet the facade length contract on every input. -/
theorem kswCoreModel_spec (r q : List Char) :
    getRefLength (align.kswCoreModel r q) = r.length ∧
      getQueryLength (align.kswCoreModel r q) = q.length := by
  unfold align.kswCoreModel
  rw [getRefLength_eq_sum, getQueryLength_eq_sum]
  simp only [List.map_append, List.sum_append]
  constructor <;>
    · split <;> split <;> split <;>
        simp [refContrib_mkUnit_M, refContrib_mkUnit_I, refContrib_mkUnit_D,
          qryContrib_mkUnit_M, qryContrib_mkUnit_I, qryContrib_mkUnit_D] <;>
        omega

theorem wfaCoreModel_spec (r q : List Char) :
    getRefLength (align.wfaCoreModel r q) = r.length ∧
      getQueryLength (align.wfaCoreModel r q) = q.length := by
  unfold align.wfaCoreModel
  rw [getRefLength_eq_sum, getQueryLength_eq_sum]
  simp only [List.map_append, List.sum_append]
  constructor <;>
    · split <;> split <;> split <;>
        simp [refContrib_mkUnit_M, refContrib_mkUnit_I, refContrib_mkUnit_D,
          qryContrib_mkUnit_M, qryContrib_mkUnit_I, qryContrib_mkUnit_D] <;>
        omega

/-- The empty-side shortcut preserves the contract for any conforming core. -/
theorem globalAlignKSW2With_spec (core : List Char → List Char → Cigar)
    (hcore : ∀ r q : List Char, r ≠ [] → q ≠ [] →
      getRefLength (core r q) = r.length ∧ getQueryLength (core r q) = q.length)
    (ref query : List Char) :
    getRefLength (align.globalAlignKSW2With core ref query) = ref.length ∧
      getQueryLength (align.globalAlignKSW2With core ref query) = query.length := by
  unfold align.globalAlignKSW2With
  by_cases h : ref.length = 0 ∨ query.length = 0
  · rw [if_pos h]
    by_cases h1 : ref.length = 0 ∧ query.length > 0
    · rw [if_pos h1]
      rw [getRefLength_eq_sum, getQueryLength_eq_sum]
      simp [refContrib_mkUnit_I, qryContrib_mkUnit_I]
      omega
    · rw [if_neg h1]
      by_cases h2 : query.length = 0 ∧ ref.length > 0
      · rw [if_pos h2]
        rw [getRefLength_eq_sum, getQueryLength_eq_sum]
        simp [refContrib_mkUnit_D, qryContrib_mkUnit_D]
        omega
      · rw [if_neg h2]
        unfold getRefLength getQueryLength
        simp only [List.foldl_nil]
        omega
  · rw [if_neg h]
    exact hcore ref query
      (fun he => h (Or.inl (by simp [he])))
      (fun he => h (Or.inr (by simp [he])))

end LengthLemmas

section C1

/-- C1.  For every conforming DP core (the external `ksw_extz2_sse`, whose
§4.6 contract is the hypothesis `hcore`), every chain result, and every
`(ref, query)` pair: the banded-DP entry point, the wavefront entry point and
the anchor-segmented entry point all return CIGARs whose reference and query
lengths equal `|ref|` and `|query|`; and whenever the segmented accumulator
fails the final total-length check, the plain DP result for the whole pair is
returned instead. -/
theorem c1_aligner_length_contract (ref query : List Char)
    (core : List Char → List Char → cigar.Cigar)
    (hcore : ∀ r q : List Char, r ≠ [] → q ≠ [] →
      cigar.getRefLength (core r q) = r.length ∧
        cigar.getQueryLength (core r q) = q.length)
    (chain : List anchor.Anchor) :
    (cigar.getRefLength (align.globalAlignKSW2With core ref query) = ref.length ∧
      cigar.getQueryLength (align.globalAlignKSW2With core ref query) = query.length) ∧
    (cigar.getRefLength (align.globalAlignWFA2 ref query) = ref.length ∧
      cigar.getQueryLength (align.globalAlignWFA2 ref query) = query.length) ∧
    (cigar.getRefLength (align.globalAlignMM2With core chain ref query) = ref.length ∧
      cigar.getQueryLength (align.globalAlignMM2With core chain ref query) = query.length) ∧
    (chain ≠ [] →
      (cigar.getRefLength (align.mm2Acc core chain ref query) ≠ ref.length ∨
        cigar.getQueryLength (align.mm2Acc core chain ref query) ≠ query.length) →
      align.globalAlignMM2With core chain ref query =
        align.globalAlignKSW2With core ref query) := by
  have hksw := globalAlignKSW2With_spec core hcore ref query
  refine ⟨hksw, wfaCoreModel_spec ref query, ?_, ?_⟩
  · unfold align.globalAlignMM2With
    by_cases hc : chain.isEmpty
    · rw [if_pos hc]
      exact hksw
    · rw [if_neg hc]
      by_cases hfail : cigar.getRefLength (align.mm2Acc core chain ref query) ≠ ref.length ∨
          cigar.getQueryLength (align.mm2Acc core chain ref query) ≠ query.length
      · rw [if_pos hfail]
        exact hksw
      · rw [if_neg hfail]
        push_neg at hfail
        exact hfail
  · intro hne hfail
    unfold align.globalAlignMM2With
    rw [if_neg (by simpa [List.isEmpty_iff] using hne), if_pos hfail]

/-- Witness for C1: the modelled core, an empty chain, `ref = "AC"`,
`query = "G"`. -/
theorem c1_aligner_length_contract_witness :
    cigar.getRefLength (align.globalAlignKSW2With align.kswCoreModel ['A', 'C'] ['G']) = 2 ∧
      cigar.getQueryLength
        (align.globalAlignMM2With align.kswCoreModel [] ['A', 'C'] ['G']) = 1 := by
  have h := c1_aligner_length_contract ['A', 'C'] ['G'] align.kswCoreModel
    (fun r q _ _ => kswCoreModel_spec r q) []
  exact ⟨h.1.1, h.2.2.1.2⟩

end C1

section C2

open align

/-- C2.  For every worker state, query, and wavefront backend: when the CIGAR
against the chosen best reference has no `I` operation, exactly one record
with `rname` = best reference id, `pos = 1`, `mapq = 60`, `flag = 0` goes to
the non-insertion stream; otherwise the query is re-aligned against the
consensus, the final CIGAR is the recheck CIGAR unless it is empty, the
record's `rname` is the consensus id, and it goes to the insertion stream iff
the final CIGAR has an `I` operation. -/
theorem c2_worker_routing (wf : List Char → List Char → cigar.Cigar)
    (A : RefAlignerState) (q : SeqRecord) (rt : Route) (rec : SamRecord)
    (h : alignOneQueryToRef wf A q = .ok (rt, rec)) :
    ∃ bi, bestRefIndex A q = .ok bi ∧
      ((cigar.hasInsertion (wf (A.ref_sequences.getD bi default).seq q.seq) = false →
        rt = Route.plain ∧
        rec = makeSamRecord q (A.ref_sequences.getD bi default).id
          (cigar.cigarToString (wf (A.ref_sequences.getD bi default).seq q.seq))
          1 60 0) ∧
      (cigar.hasInsertion (wf (A.ref_sequences.getD bi default).seq q.seq) = true →
        rec = makeSamRecord q A.consensus.id
          (cigar.cigarToString
            (if (wf A.consensus.seq q.seq).isEmpty then
              wf (A.ref_sequences.getD bi default).seq q.seq
            else wf A.consensus.seq q.seq)) 1 60 0 ∧
        (rt = Route.insertion ↔
          cigar.hasInsertion
            (if (wf A.consensus.seq q.seq).isEmpty then
              wf (A.ref_sequences.getD bi default).seq q.seq
            else wf A.consensus.seq q.seq) = true))) := by
  unfold alignOneQueryToRef at h
  cases hbi : bestRefIndex A q with
  | error e =>
      rw [hbi] at h
      exact Except.noConfusion h
  | ok bi =>
      rw [hbi] at h
      have h2 : (Except.ok
          (alignOneQueryRouted wf A q (A.ref_sequences.getD bi default)) :
          Except String (Route × SamRecord)) =
          Except.ok (rt, rec) := h
      have h3 : alignOneQueryRouted wf A q (A.ref_sequences.getD bi default) =
          (rt, rec) := Except.ok.inj h2
      refine ⟨bi, rfl, ?_, ?_⟩
      · intro hins
        rw [alignOneQueryRouted, if_pos (show ¬ cigar.hasInsertion
            (wf (A.ref_sequences.getD bi default).seq q.seq) = true by
          rw [hins]; simp)] at h3
        injection h3 with ha hb
        exact ⟨ha.symm, hb.symm⟩
      · intro hins
        rw [alignOneQueryRouted, if_neg (show ¬ ¬ cigar.hasInsertion
            (wf (A.ref_sequences.getD bi default).seq q.seq) = true by
          rw [hins]; simp)] at h3
        simp only [] at h3
        by_cases hfin : cigar.hasInsertion
            (if (wf A.consensus.seq q.seq).isEmpty then
              wf (A.ref_sequences.getD bi default).seq q.seq
            else wf A.consensus.seq q.seq) = true
        · rw [if_pos hfin] at h3
          injection h3 with ha hb
          refine ⟨hb.symm, ?_⟩
          rw [← ha]
          exact ⟨fun _ => hfin, fun _ => rfl⟩
        · rw [if_neg hfin] at h3
          injection h3 with ha hb
          refine ⟨hb.symm, ?_⟩
          rw [← ha]
          exact ⟨fun hcon => Route.noConfusion hcon, fun htrue => absurd htrue hfin⟩

/-- Witness for C2: one reference record, `k = 0` sketches (so the Jaccard
scan succeeds trivially), and a query whose modelled wavefront CIGAR has no
insertion. -/
theorem c2_worker_routing_witness :
    ∃ bi,
      align.bestRefIndex
        { ref_sequences := [{ id := "r0", seq := ['A', 'C'] }],
          ref_sketch := [{ k := 0, hashes := [] }],
          consensus := { id := "cons", seq := ['A'] },
          kmer_size := 0, sketch_size := 5, noncanonical := true }
        { id := "q0", seq := ['G'] } = .ok bi ∧
      ((cigar.hasInsertion (align.wfaCoreModel
          (([{ id := "r0", seq := ['A', 'C'] }] :
            List align.SeqRecord).getD bi default).seq ['G']) = false →
        align.Route.plain = align.Route.plain ∧
        align.makeSamRecord { id := "q0", seq := ['G'] } "r0"
            (cigar.cigarToString (align.wfaCoreModel ['A', 'C'] ['G'])) 1 60 0 =
          align.makeSamRecord { id := "q0", seq := ['G'] }
            (([{ id := "r0", seq := ['A', 'C'] }] :
              List align.SeqRecord).getD bi default).id
            (cigar.cigarToString (align.wfaCoreModel
              (([{ id := "r0", seq := ['A', 'C'] }] :
                List align.SeqRecord).getD bi default).seq ['G'])) 1 60 0) ∧
      (cigar.hasInsertion (align.wfaCoreModel
          (([{ id := "r0", seq := ['A', 'C'] }] :
            List align.SeqRecord).getD bi default).seq ['G']) = true →
        align.makeSamRecord { id := "q0", seq := ['G'] } "r0"
            (cigar.cigarToString (align.wfaCoreModel ['A', 'C'] ['G'])) 1 60 0 =
          align.makeSamRecord { id := "q0", seq := ['G'] } "cons"
            (cigar.cigarToString
              (if (align.wfaCoreModel ['A'] ['G']).isEmpty then
                align.wfaCoreModel
                  (([{ id := "r0", seq := ['A', 'C'] }] :
                    List align.SeqRecord).getD bi default).seq ['G']
              else align.wfaCoreModel ['A'] ['G'])) 1 60 0 ∧
        (align.Route.plain = align.Route.insertion ↔
          cigar.hasInsertion
            (if (align.wfaCoreModel ['A'] ['G']).isEmpty then
              align.wfaCoreModel
                (([{ id := "r0", seq := ['A', 'C'] }] :
                  List align.SeqRecord).getD bi default).seq ['G']
            else align.wfaCoreModel ['A'] ['G']) = true))) :=
  c2_worker_routing align.wfaCoreModel
    { ref_sequences := [{ id := "r0", seq := ['A', 'C'] }],
      ref_sketch := [{ k := 0, hashes := [] }],
      consensus := { id := "cons", seq := ['A'] },
      kmer_size := 0, sketch_size := 5, noncanonical := true }
    { id := "q0", seq := ['G'] } align.Route.plain
    (align.makeSamRecord { id := "q0", seq := ['G'] } "r0"
      (cigar.cigarToString (align.wfaCoreModel ['A', 'C'] ['G'])) 1 60 0) rfl

end C2

section C6

open minimizer

theorem hitLe_trans (a b c : MinimizerHit) (hab : hitLe a b = true)
    (hbc : hitLe b c = true) : hitLe a c = true := by
  unfold hitLe hitLeProp at *
  simp only [decide_eq_true_eq] at *
  omega

theorem hitLe_total (a b : MinimizerHit) : (hitLe a b || hitLe b a) = true := by
  unfold hitLe hitLeProp
  simp only [Bool.or_eq_true, decide_eq_true_eq]
  omega

/-- The merge-sorted reference hits are pairwise ascending in hash. -/
theorem mergeSort_hash_pairwise (l : List MinimizerHit) :
    (l.mergeSort hitLe).Pairwise (fun a b => a.hash ≤ b.hash) := by
  have hp := List.sorted_mergeSort hitLe_trans hitLe_total l
  refine hp.imp ?_
  intro a b hab
  unfold hitLe hitLeProp at hab
  simp only [decide_eq_true_eq] at hab
  omega

/-- The run index built by `collect_anchors` agrees with hash filtering: a
missing hash has no occurrences, and a recorded `(start, count)` slice is
exactly the filtered occurrence group. -/
theorem runs_lookup : ∀ (l : List MinimizerHit) (s : Nat),
    l.Pairwise (fun a b => a.hash ≤ b.hash) → ∀ h : Nat,
    (lookupRun (runs l s) h = none →
      l.filter (fun y => y.hash == h) = []) ∧
    (∀ st cnt2, lookupRun (runs l s) h = some (st, cnt2) →
      s ≤ st ∧ 1 ≤ cnt2 ∧
        (l.drop (st - s)).take cnt2 = l.filter (fun y => y.hash == h) ∧
        cnt2 = (l.filter (fun y => y.hash == h)).length) := by
  intro l s
  induction l, s using runs.induct with
  | case1 s =>
      intro _ h
      constructor
      · intro _
        simp
      · intro st cnt2 hlk
        simp [lookupRun, runs] at hlk
  | case2 x xs s cnt ih =>
      intro hpw h
      obtain ⟨hx_le, hpw_xs⟩ := List.pairwise_cons.mp hpw
      have hxs : xs.takeWhile (fun y => y.hash == x.hash) ++
          xs.dropWhile (fun y => y.hash == x.hash) = xs :=
        List.takeWhile_append_dropWhile _ _
      set G := xs.takeWhile (fun y => y.hash == x.hash) with hG
      set R := xs.dropWhile (fun y => y.hash == x.hash) with hR
      have hgrp : ∀ y ∈ G, y.hash = x.hash := by
        intro y hy
        rw [hG] at hy
        simpa using List.mem_takeWhile_imp hy
      have hpw_rest : R.Pairwise (fun a b => a.hash ≤ b.hash) := by
        refine hpw_xs.sublist ?_
        rw [hR]
        exact List.dropWhile_sublist _
      have hrest : ∀ z ∈ R, x.hash < z.hash := by
        intro z hz
        cases hrest_eq : R with
        | nil => rw [hrest_eq] at hz; simp at hz
        | cons r0 rest2 =>
            have h0 : 0 < (xs.dropWhile (fun y => y.hash == x.hash)).length := by
              rw [← hR, hrest_eq]; simp
            have hr0 := List.dropWhile_get_zero_not (fun y => y.hash == x.hash) xs h0
            have hr0ne : r0.hash ≠ x.hash := by
              have hget : (xs.dropWhile (fun y => y.hash == x.hash)).get ⟨0, h0⟩ = r0 := by
                have : xs.dropWhile (fun y => y.hash == x.hash) = r0 :: rest2 := by
                  rw [← hR]; exact hrest_eq
                simp [this]
              rw [hget] at hr0
              simpa using hr0
            have hr0mem : r0 ∈ xs := by
              have hsub : R ⊆ xs := by
                rw [hR]; exact (List.dropWhile_sublist _).subset
              exact hsub (by rw [hrest_eq]; exact List.mem_cons_self _ _)
            have hr0ge : x.hash ≤ r0.hash := hx_le r0 hr0mem
            rw [hrest_eq] at hz
            rcases List.mem_cons.mp hz with hz0 | hz1
            · subst hz0; omega
            · have hp2 : (r0 :: rest2).Pairwise (fun a b => a.hash ≤ b.hash) := by
                rw [← hrest_eq]; exact hpw_rest
              have := (List.pairwise_cons.mp hp2).1 z hz1
              omega
      have hcnt : cnt = 1 + G.length := rfl
      have hruns : runs (x :: xs) s = (x.hash, s, cnt) :: runs R (s + cnt) := by
        rw [runs]
      by_cases hh : x.hash = h
      · subst hh
        have hfilG : G.filter (fun y => y.hash == x.hash) = G :=
          List.filter_eq_self.mpr (fun y hy => by simp [hgrp y hy])
        have hfilR : R.filter (fun y => y.hash == x.hash) = [] :=
          List.filter_eq_nil_iff.mpr (fun z hz => by
            have := hrest z hz
            simp only [beq_iff_eq]
            omega)
        have hfil : (x :: xs).filter (fun y => y.hash == x.hash) = x :: G := by
          rw [List.filter_cons_of_pos (by simp)]
          congr 1
          conv_lhs => rw [← hxs]
          rw [List.filter_append, hfilG, hfilR, List.append_nil]
        have hlk : lookupRun (runs (x :: xs) s) x.hash = some (s, cnt) := by
          rw [hruns]
          unfold lookupRun
          rw [List.find?_cons_of_pos _ (by simp)]
          rfl
        constructor
        · intro hnone
          rw [hlk] at hnone
          exact Option.noConfusion hnone
        · intro st cnt2 hlk2
          rw [hlk] at hlk2
          have hinj := Option.some.inj hlk2
          have hst1 : s = st := congrArg Prod.fst hinj
          have hst2 : cnt = cnt2 := congrArg Prod.snd hinj
          subst hst1
          subst hst2
          refine ⟨le_refl s, by omega, ?_, ?_⟩
          · rw [Nat.sub_self, List.drop_zero, hfil, hcnt, Nat.add_comm,
              List.take_succ_cons]
            congr 1
            conv_lhs => rw [← hxs]
            exact List.take_left _ _
          · rw [hfil]
            rw [hcnt]
            simp [Nat.add_comm]
      · have hfilG : G.filter (fun y => y.hash == h) = [] :=
          List.filter_eq_nil_iff.mpr (fun y hy => by
            have := hgrp y hy
            simp only [beq_iff_eq]
            omega)
        have hfil : (x :: xs).filter (fun y => y.hash == h) =
            R.filter (fun y => y.hash == h) := by
          rw [List.filter_cons_of_neg (by simp only [beq_iff_eq]; omega)]
          conv_lhs => rw [← hxs]
          rw [List.filter_append, hfilG, List.nil_append]
        have hlk : lookupRun (runs (x :: xs) s) h =
            lookupRun (runs R (s + cnt)) h := by
          rw [hruns]
          unfold lookupRun
          rw [List.find?_cons_of_neg _ (by simp only [beq_iff_eq]; omega)]
        obtain ⟨ihn, ihs⟩ := ih hpw_rest h
        constructor
        · intro hnone
          rw [hlk] at hnone
          rw [hfil]
          exact ihn hnone
        · intro st cnt2 hlk2
          rw [hlk] at hlk2
          obtain ⟨h1, h2, h3, h4⟩ := ihs st cnt2 hlk2
          refine ⟨by omega, h2, ?_, by rw [hfil]; exact h4⟩
          rw [hfil, ← h3]
          congr 1
          have hdecomp : x :: xs = (x :: G) ++ R := by
            rw [List.cons_append]
            congr 1
            exact hxs.symm
          have hlenxg : (x :: G).length = cnt := by
            simp [hcnt, Nat.add_comm]
          rw [hdecomp, List.drop_append_eq_append_drop,
            List.drop_eq_nil_of_le (by omega : (x :: G).length ≤ st - s),
            List.nil_append, hlenxg]
          congr 1
          omega

/-- C6.  The collector applies its frequency filters before occurrence
expansion: each query hit yields anchors only if its hash has reference
occurrences, only if (for positive `q_occ_frac`) its query occurrence count
stays within `q_occ_frac · |qry_hits|`, and, when the reference occurrence
count exceeds `max(u_floor, min(u_ceil, top-fraction cutoff))`, only at query
positions divisible by `sample_every_bp` (never when that is 0); each
surviving hit expands to one anchor per reference occurrence with
`span = min` and `is_rev = strand XOR strand`.  The cutoff is the
`⌊f_top_frac · #distinct⌋`-th largest occurrence count, `SIZE_MAX` when that
index is zero (or the fraction non-positive, or no occurrences), and `1` for
a fraction `≥ 1`. -/
theorem c6_collector_filters_before_expansion
    (ref_hits qry_hits : List MinimizerHit) (p : anchor.SeedFilterParams) :
    (collect_anchors ref_hits qry_hits p =
      if ref_hits.isEmpty ∨ qry_hits.isEmpty then []
      else
        qry_hits.flatMap (fun qh =>
          if (ref_hits.mergeSort hitLe).filter (fun y => y.hash == qh.hash) = [] then []
          else if p.q_occ_frac > 0 ∧
              ((qry_hits.countP (fun x => x.hash == qh.hash) : ℚ) >
                p.q_occ_frac * (qry_hits.length : ℚ)) then []
          else if ((ref_hits.mergeSort hitLe).filter
                (fun y => y.hash == qh.hash)).length >
              anchor.compute_ref_occ_threshold
                ((runs (ref_hits.mergeSort hitLe) 0).map (fun t => t.2.2)) p ∧
              (p.sample_every_bp = 0 ∨ qh.pos % p.sample_every_bp ≠ 0) then []
          else
            ((ref_hits.mergeSort hitLe).filter (fun y => y.hash == qh.hash)).map
              (fun rh =>
                { hash := qh.hash, rid_ref := rh.rid, pos_ref := rh.pos,
                  rid_qry := qh.rid, pos_qry := qh.pos,
                  span := min rh.span qh.span,
                  is_rev := rh.strand ≠ qh.strand }))) ∧
    (∀ occs : List Nat, ∀ f : ℚ,
      ((occs = [] ∨ f ≤ 0) → anchor.compute_occ_cutoff_top_frac occs f = anchor.sizeTMax) ∧
      (occs ≠ [] → 0 < f → 1 ≤ f → anchor.compute_occ_cutoff_top_frac occs f = 1) ∧
      (occs ≠ [] → 0 < f → f < 1 → (⌊f * (occs.length : ℚ)⌋).toNat = 0 →
        anchor.compute_occ_cutoff_top_frac occs f = anchor.sizeTMax) ∧
      (occs ≠ [] → 0 < f → f < 1 → (⌊f * (occs.length : ℚ)⌋).toNat ≠ 0 →
        anchor.compute_occ_cutoff_top_frac occs f =
          (occs.mergeSort (fun a b => b ≤ a)).getD
            ((⌊f * (occs.length : ℚ)⌋).toNat - 1) 0) ∧
      anchor.compute_ref_occ_threshold occs p =
        max p.u_floor (min p.u_ceil (anchor.compute_occ_cutoff_top_frac occs p.f_top_frac))) := by
  constructor
  · by_cases hemp : ref_hits.isEmpty ∨ qry_hits.isEmpty
    · rw [if_pos hemp]
      unfold collect_anchors
      rw [if_pos hemp]
    · rw [if_neg hemp]
      simp only [collect_anchors]
      rw [if_neg hemp]
      congr 1
      funext qh
      have hpw := mergeSort_hash_pairwise ref_hits
      obtain ⟨hnone, hsome⟩ := runs_lookup (ref_hits.mergeSort hitLe) 0 hpw qh.hash
      cases hlk : lookupRun (runs (ref_hits.mergeSort hitLe) 0) qh.hash with
      | none =>
          rw [hnone hlk]
          simp only [hlk, if_pos rfl]
          simp
      | some pr =>
          obtain ⟨st, cnt⟩ := pr
          obtain ⟨h1, h2, h3, h4⟩ := hsome st cnt hlk
          rw [Nat.sub_zero] at h3
          simp only [hlk]
          have hgrp_ne : ¬ ((ref_hits.mergeSort hitLe).filter
              (fun y => y.hash == qh.hash) = []) := by
            intro hcon
            rw [hcon] at h4
            simp at h4
            omega
          rw [if_neg hgrp_ne, ← h4, ← h3]
  · intro occs f
    refine ⟨?_, ?_, ?_, ?_, rfl⟩
    · rintro (h | h)
      · simp [anchor.compute_occ_cutoff_top_frac, h]
      · simp [anchor.compute_occ_cutoff_top_frac, h]
    · intro h1 h2 h3
      unfold anchor.compute_occ_cutoff_top_frac
      rw [if_neg (by simpa using h1), if_neg (by push_neg; exact h2), if_pos h3]
    · intro h1 h2 h3 h4
      unfold anchor.compute_occ_cutoff_top_frac
      rw [if_neg (by simpa using h1), if_neg (by push_neg; exact h2),
        if_neg (by push_neg; exact h3), if_pos h4]
    · intro h1 h2 h3 h4
      unfold anchor.compute_occ_cutoff_top_frac
      rw [if_neg (by simpa using h1), if_neg (by push_neg; exact h2),
        if_neg (by push_neg; exact h3), if_neg h4]

/-- Witness for C6: the cutoff at `occs = [3,1,2]`, `f = 1/2` (skip index 1,
first largest count). -/
theorem c6_collector_filters_before_expansion_witness :
    anchor.compute_occ_cutoff_top_frac [3, 1, 2] (1 / 2) =
      (([3, 1, 2] : List Nat).mergeSort (fun a b => b ≤ a)).getD
        ((⌊(1 / 2 : ℚ) * (([3, 1, 2] : List Nat).length : ℚ)⌋).toNat - 1) 0 := by
  have h := (c6_collector_filters_before_expansion [] [] anchor.default_mm2_params).2
    [3, 1, 2] (1 / 2)
  refine h.2.2.2.1 (by decide) (by norm_num) (by norm_num) ?_
  have hfl : (⌊(1 / 2 : ℚ) * (([3, 1, 2] : List Nat).length : ℚ)⌋ : ℤ) = 1 := by
    norm_num
  rw [hfl]
  decide

end C6

section C5

open minimizer

/-- C5 (amended).  Tightening the collector in the directions the code
actually implements never increases the anchor count: a smaller `u_ceil`, or
a smaller (still positive) `q_occ_frac`. -/
theorem c5_anchor_filter_monotone (ref_hits qry_hits : List MinimizerHit)
    (p : anchor.SeedFilterParams) :
    (∀ u2, u2 ≤ p.u_ceil →
      (collect_anchors ref_hits qry_hits { p with u_ceil := u2 }).length ≤
        (collect_anchors ref_hits qry_hits p).length) ∧
    (∀ f2 : ℚ, 0 < f2 → f2 ≤ p.q_occ_frac →
      (collect_anchors ref_hits qry_hits { p with q_occ_frac := f2 }).length ≤
        (collect_anchors ref_hits qry_hits p).length) := by
  constructor
  · intro u2 hu
    rw [(c6_collector_filters_before_expansion ref_hits qry_hits
      { p with u_ceil := u2 }).1,
      (c6_collector_filters_before_expansion ref_hits qry_hits p).1]
    by_cases hemp : ref_hits.isEmpty ∨ qry_hits.isEmpty
    · rw [if_pos hemp, if_pos hemp]
    · rw [if_neg hemp, if_neg hemp, List.length_flatMap, List.length_flatMap]
      apply List.sum_le_sum
      intro qh _
      simp only [Function.comp_apply]
      set grp := (ref_hits.mergeSort hitLe).filter (fun y => y.hash == qh.hash)
        with hgrp
      set occs := (runs (ref_hits.mergeSort hitLe) 0).map (fun t => t.2.2)
        with hoccs
      have hthr : anchor.compute_ref_occ_threshold occs { p with u_ceil := u2 } ≤
          anchor.compute_ref_occ_threshold occs p := by
        unfold anchor.compute_ref_occ_threshold
        simp only []
        have : min u2 (anchor.compute_occ_cutoff_top_frac occs p.f_top_frac) ≤
            min p.u_ceil (anchor.compute_occ_cutoff_top_frac occs p.f_top_frac) := by
          omega
        omega
      by_cases h1 : grp = []
      · rw [if_pos h1, if_pos h1]
      · rw [if_neg h1, if_neg h1]
        by_cases h2 : p.q_occ_frac > 0 ∧
            ((qry_hits.countP (fun x => x.hash == qh.hash) : ℚ) >
              p.q_occ_frac * (qry_hits.length : ℚ))
        · rw [if_pos h2, if_pos h2]
        · rw [if_neg h2, if_neg h2]
          by_cases h3 : grp.length >
              anchor.compute_ref_occ_threshold occs { p with u_ceil := u2 } ∧
              (p.sample_every_bp = 0 ∨ qh.pos % p.sample_every_bp ≠ 0)
          · rw [if_pos h3]
            simp
          · rw [if_neg h3]
            have h4 : ¬ (grp.length > anchor.compute_ref_occ_threshold occs p ∧
                (p.sample_every_bp = 0 ∨ qh.pos % p.sample_every_bp ≠ 0)) := by
              intro hcon
              exact h3 ⟨by omega, hcon.2⟩
            rw [if_neg h4]
  · intro f2 hf2 hle
    rw [(c6_collector_filters_before_expansion ref_hits qry_hits
      { p with q_occ_frac := f2 }).1,
      (c6_collector_filters_before_expansion ref_hits qry_hits p).1]
    by_cases hemp : ref_hits.isEmpty ∨ qry_hits.isEmpty
    · rw [if_pos hemp, if_pos hemp]
    · rw [if_neg hemp, if_neg hemp, List.length_flatMap, List.length_flatMap]
      apply List.sum_le_sum
      intro qh _
      simp only [Function.comp_apply]
      set grp := (ref_hits.mergeSort hitLe).filter (fun y => y.hash == qh.hash)
        with hgrp
      set occs := (runs (ref_hits.mergeSort hitLe) 0).map (fun t => t.2.2)
        with hoccs
      by_cases h1 : grp = []
      · rw [if_pos h1, if_pos h1]
      · rw [if_neg h1, if_neg h1]
        by_cases h2 : f2 > 0 ∧
            ((qry_hits.countP (fun x => x.hash == qh.hash) : ℚ) >
              f2 * (qry_hits.length : ℚ))
        · rw [if_pos h2]
          simp
        · rw [if_neg h2]
          have h2b : ¬ (p.q_occ_frac > 0 ∧
              ((qry_hits.countP (fun x => x.hash == qh.hash) : ℚ) >
                p.q_occ_frac * (qry_hits.length : ℚ))) := by
            rintro ⟨hpos, hgt⟩
            apply h2
            refine ⟨hf2, lt_of_le_of_lt ?_ hgt⟩
            apply mul_le_mul_of_nonneg_right hle
            positivity
          rw [if_neg h2b]
          have hthr_eq : anchor.compute_ref_occ_threshold occs
              { p with q_occ_frac := f2 } =
              anchor.compute_ref_occ_threshold occs p := rfl
          rw [hthr_eq]

section C5CE

open minimizer

theorem c5_anchor_filter_counterexample :
    (collect_anchors [mkHit 7 0 0 false 5]
        [mkHit 7 0 0 false 4, mkHit 7 1 0 false 4]
        { f_top_frac := 2 / 10000, u_floor := 10, u_ceil := 1000000,
          q_occ_frac := 1, sample_every_bp := 500 }).length = 2 ∧
    (collect_anchors [mkHit 7 0 0 false 5]
        [mkHit 7 0 0 false 4, mkHit 7 1 0 false 4]
        { f_top_frac := 2 / 10000, u_floor := 10, u_ceil := 1000000,
          q_occ_frac := 1 / 2, sample_every_bp := 500 }).length = 0 ∧
    ((1 : ℚ) / 2) < 1 := by
  have hhr : (mkHit 7 0 0 false 5).hash = 7 := by decide
  have hq1 : (mkHit 7 0 0 false 4).hash = 7 := by decide
  have hq2 : (mkHit 7 1 0 false 4).hash = 7 := by decide
  have hq2p : (mkHit 7 1 0 false 4).pos = 1 := by decide
  have hsort : ([mkHit 7 0 0 false 5].mergeSort hitLe) = [mkHit 7 0 0 false 5] :=
    List.mergeSort_singleton _
  have hruns : runs [mkHit 7 0 0 false 5] 0 = [(7, 0, 1)] := by
    rw [runs]
    simp [hhr, runs]
  have hlk : lookupRun [(7, 0, 1)] 7 = some (0, 1) := by
    simp [lookupRun]
  have hfloor : (⌊(2 / 10000 : ℚ) * ((1 : Nat) : ℚ)⌋).toNat = 0 := by
    norm_num
  have hco : anchor.compute_occ_cutoff_top_frac [1] (2 / 10000) = anchor.sizeTMax := by
    unfold anchor.compute_occ_cutoff_top_frac
    rw [if_neg (by simp), if_neg (by norm_num), if_neg (by norm_num)]
    simp only [List.length_singleton]
    rw [if_pos]
    simpa using hfloor
  have hthr : ∀ qf : ℚ, anchor.compute_ref_occ_threshold [1]
      { f_top_frac := 2 / 10000, u_floor := 10, u_ceil := 1000000,
        q_occ_frac := qf, sample_every_bp := 500 } = 1000000 := by
    intro qf
    unfold anchor.compute_ref_occ_threshold
    rw [hco]
    unfold anchor.sizeTMax
    norm_num
  refine ⟨?_, ?_, by norm_num⟩
  · simp only [collect_anchors, hsort, hruns, List.isEmpty_cons, List.flatMap_cons,
      List.flatMap_nil]
    simp only [hq1, hq2, hlk, hq2p, List.map_cons, List.map_nil, hthr,
      List.countP_cons, List.countP_nil]
    norm_num [hq1, hq2]
  · simp only [collect_anchors, hsort, hruns, List.isEmpty_cons, List.flatMap_cons,
      List.flatMap_nil]
    simp only [hq1, hq2, hlk, hq2p, List.map_cons, List.map_nil, hthr,
      List.countP_cons, List.countP_nil]
    norm_num [hq1, hq2]

end C5CE

section C5W

open minimizer

/-- Witness for C5: the monotonicity theorem instantiated at a concrete
ref/query hit pair, with `u2 = 5 ≤ 1000000` and `f2 = 1/200 ≤ 1/100`. -/
theorem c5_anchor_filter_monotone_witness :
    (collect_anchors [mkHit 7 0 0 false 5] [mkHit 7 0 0 false 4]
        { anchor.default_mm2_params with u_ceil := 5 }).length ≤
      (collect_anchors [mkHit 7 0 0 false 5] [mkHit 7 0 0 false 4]
        anchor.default_mm2_params).length ∧
    (collect_anchors [mkHit 7 0 0 false 5] [mkHit 7 0 0 false 4]
        { anchor.default_mm2_params with q_occ_frac := 1 / 200 }).length ≤
      (collect_anchors [mkHit 7 0 0 false 5] [mkHit 7 0 0 false 4]
        anchor.default_mm2_params).length :=
  ⟨(c5_anchor_filter_monotone [mkHit 7 0 0 false 5] [mkHit 7 0 0 false 4]
      anchor.default_mm2_params).1 5 (by norm_num [anchor.default_mm2_params]),
   (c5_anchor_filter_monotone [mkHit 7 0 0 false 5] [mkHit 7 0 0 false 4]
      anchor.default_mm2_params).2 (1 / 200) (by norm_num)
      (by norm_num [anchor.default_mm2_params])⟩

end C5W

section C10

open minimizer

theorem popExpired_zero_eq (r : Ring) : r.popExpired 0 = r := by
  rw [Ring.popExpired]
  split
  · rfl
  · rw [if_neg (Nat.not_lt_zero _)]

theorem push_isEmpty_false (r : Ring) (h p : Nat) : (r.push h p).isEmpty = false := by
  simp [Ring.push, Ring.isEmpty]

theorem extractStep_out_ne_nil (k win mask shiftv : Nat) (nc : Bool) (i : Nat)
    (st : ExtState) (ch : Char) (h : st.out ≠ []) :
    (extractStep k win mask shiftv nc i st ch).out ≠ [] := by
  simp only [extractStep]
  repeat' split
  all_goals simp [h]

theorem extractStep_hasLast_inv (k win mask shiftv : Nat) (nc : Bool) (i : Nat)
    (st : ExtState) (ch : Char) (h : st.hasLast = true → st.out ≠ []) :
    (extractStep k win mask shiftv nc i st ch).hasLast = true →
      (extractStep k win mask shiftv nc i st ch).out ≠ [] := by
  simp only [extractStep]
  repeat' split
  all_goals intro hl
  · exact absurd hl (by simp)
  all_goals first
    | exact h hl
    | simp

theorem extractRun_out_ne_nil (k win mask shiftv : Nat) (nc : Bool) :
    ∀ (l : List Char) (i : Nat) (st : ExtState), st.out ≠ [] →
      (extractRun k win mask shiftv nc i st l).out ≠ [] := by
  intro l
  induction l with
  | nil => intro i st h; exact h
  | cons ch rest ih =>
      intro i st h
      rw [extractRun]
      exact ih (i + 1) _ (extractStep_out_ne_nil k win mask shiftv nc i st ch h)

theorem extractRun_hasLast_inv (k win mask shiftv : Nat) (nc : Bool) :
    ∀ (l : List Char) (i : Nat) (st : ExtState), (st.hasLast = true → st.out ≠ []) →
      ((extractRun k win mask shiftv nc i st l).hasLast = true →
        (extractRun k win mask shiftv nc i st l).out ≠ []) := by
  intro l
  induction l with
  | nil => intro i st h; exact h
  | cons ch rest ih =>
      intro i st h
      rw [extractRun]
      exact ih (i + 1) _ (extractStep_hasLast_inv k win mask shiftv nc i st ch h)

theorem extractRun_append (k win mask shiftv : Nat) (nc : Bool) :
    ∀ (a b : List Char) (i : Nat) (st : ExtState),
      extractRun k win mask shiftv nc i st (a ++ b) =
        extractRun k win mask shiftv nc (i + a.length)
          (extractRun k win mask shiftv nc i st a) b := by
  intro a
  induction a with
  | nil => intro b i st; simp [extractRun]
  | cons ch rest ih =>
      intro b i st
      rw [List.cons_append, extractRun, extractRun, ih]
      simp only [List.length_cons]
      rw [Nat.add_comm rest.length 1, ← Nat.add_assoc]

theorem extractStep_valid_of_valid_char (k win mask shiftv : Nat) (nc : Bool)
    (i : Nat) (st : ExtState) (ch : Char) (hch : nt4t ch < 4) :
    (extractStep k win mask shiftv nc i st ch).valid =
      if st.valid < k then st.valid + 1 else st.valid := by
  simp only [extractStep]
  rw [if_neg (by omega)]
  repeat' split
  all_goals rfl

theorem extractRun_valid_of_all_valid (k win mask shiftv : Nat) (nc : Bool) :
    ∀ (l : List Char) (i : Nat) (st : ExtState),
      (∀ c ∈ l, nt4t c < 4) → st.valid ≤ k →
      (extractRun k win mask shiftv nc i st l).valid = min (st.valid + l.length) k := by
  intro l
  induction l with
  | nil => intro i st _ h; simp [extractRun]; omega
  | cons ch rest ih =>
      intro i st hl h
      rw [extractRun]
      have hch : nt4t ch < 4 := hl ch (by simp)
      have hrest : ∀ c ∈ rest, nt4t c < 4 := fun c hc => hl c (by simp [hc])
      have hstep := extractStep_valid_of_valid_char k win mask shiftv nc i st ch hch
      rw [ih (i + 1) _ hrest (by rw [hstep]; split <;> omega), hstep]
      simp only [List.length_cons]
      split <;> omega

theorem ite_out_ne_nil (P : Prop) [Decidable P] (a b : ExtState)
    (ha : a.out ≠ []) (hb : b.out ≠ []) : (if P then a else b).out ≠ [] := by
  split
  · exact ha
  · exact hb

theorem extractStep_emit (k win mask shiftv : Nat) (nc : Bool) (st : ExtState)
    (ch : Char) (hch : nt4t ch < 4) (hk : 1 ≤ k) (hwin : 1 ≤ win)
    (hv1 : k - 1 ≤ st.valid) (hv2 : st.valid ≤ k)
    (hinv : st.hasLast = true → st.out ≠ []) :
    (extractStep k win mask shiftv nc (win + k - 2) st ch).out ≠ [] := by
  simp only [extractStep]
  rw [if_neg (by omega)]
  have hvalid2 : (if st.valid < k then st.valid + 1 else st.valid) = k := by
    split <;> omega
  rw [hvalid2, if_neg (lt_irrefl k)]
  have hpos : win + k - 2 + 1 - k = win - 1 := by omega
  rw [hpos]
  rw [if_neg (show ¬ (win - 1 + 1 < win) by omega)]
  have h0 : win - 1 + 1 - win = 0 := by omega
  rw [h0, popExpired_zero_eq]
  rw [if_neg (by simp [push_isEmpty_false])]
  by_cases hlast : st.hasLast = true
  · exact ite_out_ne_nil _ _ _ (by simp) (hinv hlast)
  · rw [if_pos (Or.inl (by revert hlast; cases st.hasLast <;> simp))]
    simp

theorem extract_core_ne_nil (k win mask shiftv : Nat) (nc : Bool) (seq : List Char)
    (hvalid : ∀ c ∈ seq, nt4t c < 4) (hk : 1 ≤ k) (hwin : 1 ≤ win)
    (hlen : win + k - 1 ≤ seq.length) :
    (extractRun k win mask shiftv nc 0
      { fwd := 0, rev := 0, valid := 0, q := Ring.init win,
        lastH := 0, lastPos := 0, hasLast := false, out := [] } seq).out ≠ [] := by
  have hm : win + k - 2 < seq.length := by omega
  have harith : win + k - 2 + 1 = win + k - 1 := by omega
  have hseq : seq = seq.take (win + k - 2) ++
      seq.get ⟨win + k - 2, hm⟩ :: seq.drop (win + k - 1) := by
    conv_lhs => rw [← List.take_append_drop (win + k - 2) seq]
    rw [List.drop_eq_getElem_cons hm, harith]
    rfl
  rw [hseq, extractRun_append, extractRun]
  have htl : (seq.take (win + k - 2)).length = win + k - 2 := by
    rw [List.length_take]; omega
  rw [htl, Nat.zero_add]
  apply extractRun_out_ne_nil
  have hvt : ∀ c ∈ seq.take (win + k - 2), nt4t c < 4 :=
    fun c hc => hvalid c (List.take_subset _ _ hc)
  have hval : (extractRun k win mask shiftv nc 0
      { fwd := 0, rev := 0, valid := 0, q := Ring.init win,
        lastH := 0, lastPos := 0, hasLast := false, out := [] }
      (seq.take (win + k - 2))).valid = min (0 + (seq.take (win + k - 2)).length) k :=
    extractRun_valid_of_all_valid k win mask shiftv nc
      (seq.take (win + k - 2)) 0 _ hvt (Nat.zero_le k)
  rw [htl, Nat.zero_add] at hval
  have hinv := extractRun_hasLast_inv k win mask shiftv nc
    (seq.take (win + k - 2)) 0
    { fwd := 0, rev := 0, valid := 0, q := Ring.init win,
      lastH := 0, lastPos := 0, hasLast := false, out := [] }
    (fun h => nomatch h)
  exact extractStep_emit k win mask shiftv nc _ _
    (hvalid _ (seq.get_mem _ _)) hk hwin
    (by rw [hval]; omega) (by rw [hval]; omega) hinv

/-- C10 counterexample: the sequence "TT" holds only the A/C/G/T bytes the
claim quantifies over, with `k = 1 ≤ n = 2`, `1 ≤ k ≤ 31` and `1 ≤ w = 2 <
256`, yet `extractMinimizer` returns the empty list: the shipped `nt4_table`
maps `'T'` to the invalid code 4, so every window is reset and no hit is
emitted. -/
theorem c10_minimizer_counterexample :
    extractMinimizer ['T', 'T'] 1 2 false = [] ∧ minimizer.nt4t 'T' = 4 := by
  decide

/-- C10 (amended): for every sequence whose bytes are all valid under the
shipped `nt4_table` (code < 4), with `1 ≤ k ≤ 31`, `k ≤ n` and `1 ≤ w < 256`,
`extractMinimizer` clamps the window to `win = min w (n - k + 1)` k-mers and
emits at least one hit — even when the sequence holds fewer than `w` k-mers. -/
theorem c10_minimizer_window_clamp (seq : List Char) (k w : Nat) (nc : Bool)
    (hvalid : ∀ c ∈ seq, nt4t c < 4)
    (hk1 : 1 ≤ k) (hk31 : k ≤ 31) (hkn : k ≤ seq.length)
    (hw1 : 1 ≤ w) (hw256 : w < 256) :
    extractMinimizer seq k w nc ≠ [] := by
  simp only [extractMinimizer]
  rw [if_neg (by omega), if_neg (by omega), if_neg (by omega),
    if_neg (show ¬ (min w (seq.length - k + 1) = 0) by omega)]
  exact extract_core_ne_nil k (min w (seq.length - k + 1)) ((1 <<< (2 * k)) - 1)
    (2 * (k - 1)) nc seq hvalid hk1 (by omega) (by omega)

/-- Witness for C10: "ACG" with `k = 2`, `w = 5` — only two k-mers, so the
window is clamped from 5 to 2, and a hit is still emitted. -/
theorem c10_minimizer_window_clamp_witness :
    extractMinimizer ['A', 'C', 'G'] 2 5 false ≠ [] :=
  c10_minimizer_window_clamp ['A', 'C', 'G'] 2 5 false (by decide)
    (by decide) (by decide) (by decide) (by decide) (by decide)

end C10

section C3Lemmas

open cigar

theorem alignedLength_eq_sum (c : Cigar) :
    alignedLength c = (c.map aContrib).sum := by
  have haux : ∀ (l : Cigar) (a : Nat),
      l.foldl (fun acc u =>
        let op := opCodeToChar (u &&& 0xF)
        if op = 'M' ∨ op = '=' ∨ op = 'X' ∨ op = 'D' ∨ op = 'I' ∨ op = 'S' then
          acc + (u >>> 4)
        else acc) a =
      a + (l.map aContrib).sum := by
    intro l
    induction l with
    | nil => intro a; simp
    | cons u rest ih =>
        intro a
        simp only [List.foldl_cons, List.map_cons, List.sum_cons]
        rw [ih]
        by_cases hcond : opCodeToChar (u &&& 0xF) = 'M' ∨ opCodeToChar (u &&& 0xF) = '=' ∨
            opCodeToChar (u &&& 0xF) = 'X' ∨ opCodeToChar (u &&& 0xF) = 'D' ∨
            opCodeToChar (u &&& 0xF) = 'I' ∨ opCodeToChar (u &&& 0xF) = 'S'
        · simp only [aContrib, hcond, if_true, if_pos hcond]
          omega
        · simp only [aContrib, hcond, if_false, if_neg hcond]
          omega
  exact (haux c 0).trans (by omega)

theorem queryConsumed_eq_sum (c : Cigar) :
    queryConsumed c = (c.map qContrib).sum := by
  have haux : ∀ (l : Cigar) (a : Nat),
      l.foldl (fun acc u =>
        let op := opCodeToChar (u &&& 0xF)
        if op = 'M' ∨ op = '=' ∨ op = 'X' ∨ op = 'I' ∨ op = 'S' then
          acc + (u >>> 4)
        else acc) a =
      a + (l.map qContrib).sum := by
    intro l
    induction l with
    | nil => intro a; simp
    | cons u rest ih =>
        intro a
        simp only [List.foldl_cons, List.map_cons, List.sum_cons]
        rw [ih]
        by_cases hcond : opCodeToChar (u &&& 0xF) = 'M' ∨ opCodeToChar (u &&& 0xF) = '=' ∨
            opCodeToChar (u &&& 0xF) = 'X' ∨ opCodeToChar (u &&& 0xF) = 'I' ∨
            opCodeToChar (u &&& 0xF) = 'S'
        · simp only [qContrib, hcond, if_true, if_pos hcond]
          omega
        · simp only [qContrib, hcond, if_false, if_neg hcond]
          omega
  exact (haux c 0).trans (by omega)

theorem alignedLength_snoc (c : Cigar) (u : CigarUnit) :
    alignedLength (c ++ [u]) = alignedLength c + aContrib u := by
  simp [alignedLength_eq_sum]

theorem queryConsumed_snoc (c : Cigar) (u : CigarUnit) :
    queryConsumed (c ++ [u]) = queryConsumed c + qContrib u := by
  simp [queryConsumed_eq_sum]

theorem contrib_consume (u : CigarUnit)
    (h : opCodeToChar (u &&& 0xF) = 'M' ∨ opCodeToChar (u &&& 0xF) = '=' ∨
      opCodeToChar (u &&& 0xF) = 'X' ∨ opCodeToChar (u &&& 0xF) = 'I' ∨
      opCodeToChar (u &&& 0xF) = 'S') :
    aContrib u = u >>> 4 ∧ qContrib u = u >>> 4 := by
  constructor
  · simp only [aContrib]
    rcases h with h | h | h | h | h <;> rw [h] <;> rw [if_pos (by decide)]
  · simp only [qContrib]
    rcases h with h | h | h | h | h <;> rw [h] <;> rw [if_pos (by decide)]

theorem contrib_D (u : CigarUnit) (h : opCodeToChar (u &&& 0xF) = 'D') :
    aContrib u = u >>> 4 ∧ qContrib u = 0 := by
  constructor
  · simp only [aContrib]
    rw [h, if_pos (by decide)]
  · simp only [qContrib]
    rw [h, if_neg (by decide)]

theorem contrib_H (u : CigarUnit) (h : opCodeToChar (u &&& 0xF) = 'H') :
    aContrib u = 0 ∧ qContrib u = 0 := by
  constructor
  · simp only [aContrib]
    rw [h, if_neg (by decide)]
  · simp only [qContrib]
    rw [h, if_neg (by decide)]

theorem copyBack_spec (orig : List Char) :
    ∀ (len ap qp : Nat) (out : List Char), len ≤ ap → ap ≤ out.length →
      len ≤ qp → qp ≤ orig.length →
      copyBack orig len ap qp out =
        (out.take (ap - len) ++ (orig.drop (qp - len)).take len ++ out.drop ap,
          ap - len, qp - len) := by
  intro len
  induction len with
  | zero =>
      intro ap qp out _ _ _ _
      simp [copyBack, List.take_append_drop]
  | succ n ih =>
      intro ap qp out h1 h2 h3 h4
      rw [copyBack]
      rw [ih (ap - 1) (qp - 1) (out.set (ap - 1) (orig.getD (qp - 1) '-'))
        (by omega) (by rw [List.length_set]; omega) (by omega) (by omega)]
      have e1 : ap - 1 - n = ap - (n + 1) := by omega
      have e2 : qp - 1 - n = qp - (n + 1) := by omega
      rw [e1, e2]
      have htk : (out.set (ap - 1) (orig.getD (qp - 1) '-')).take (ap - (n + 1)) =
          out.take (ap - (n + 1)) := by
        rw [List.set_take]
        exact List.set_eq_of_length_le (by rw [List.length_take]; omega)
      have hdr : (out.set (ap - 1) (orig.getD (qp - 1) '-')).drop (ap - 1) =
          orig.getD (qp - 1) '-' :: out.drop ap := by
        rw [List.drop_set, if_neg (by omega), Nat.sub_self]
        rw [List.drop_eq_getElem_cons (show ap - 1 < out.length by omega)]
        have : ap - 1 + 1 = ap := by omega
        rw [this]
        rfl
      have hseg : (orig.drop (qp - (n + 1))).take (n + 1) =
          (orig.drop (qp - 1 - n)).take n ++ [orig.getD (qp - 1) '-'] := by
        rw [List.take_succ]
        rw [List.getElem?_drop]
        have e3 : qp - (n + 1) + n = qp - 1 := by omega
        rw [e3, e2.symm]
        rw [List.getElem?_eq_getElem (show qp - 1 < orig.length by omega)]
        rw [List.getD_eq_getElem orig '-' (show qp - 1 < orig.length by omega)]
        rfl
      rw [htk, hdr, hseg, e2]
      simp [List.append_assoc]

theorem queryConsumed_cons (u : CigarUnit) (rest : Cigar) :
    queryConsumed (u :: rest) = qContrib u + queryConsumed rest := by
  simp [queryConsumed_eq_sum]

theorem alignedLength_cons (u : CigarUnit) (rest : Cigar) :
    alignedLength (u :: rest) = aContrib u + alignedLength rest := by
  simp [alignedLength_eq_sum]

theorem qContrib_zero (u : CigarUnit)
    (h : ¬ (opCodeToChar (u &&& 0xF) = 'M' ∨ opCodeToChar (u &&& 0xF) = '=' ∨
      opCodeToChar (u &&& 0xF) = 'X' ∨ opCodeToChar (u &&& 0xF) = 'I' ∨
      opCodeToChar (u &&& 0xF) = 'S')) :
    qContrib u = 0 := by
  simp only [qContrib]
  rw [if_neg h]

theorem renderPad_append (a b : Cigar) :
    ∀ s : List Char, renderPad (a ++ b) s =
      renderPad a s ++ renderPad b (s.drop (queryConsumed a)) := by
  induction a with
  | nil =>
      intro s
      simp [renderPad, queryConsumed]
  | cons u rest ih =>
      intro s
      rw [List.cons_append, renderPad, renderPad, queryConsumed_cons]
      by_cases h1 : opCodeToChar (u &&& 0xF) = 'M' ∨ opCodeToChar (u &&& 0xF) = '=' ∨
          opCodeToChar (u &&& 0xF) = 'X' ∨ opCodeToChar (u &&& 0xF) = 'I' ∨
          opCodeToChar (u &&& 0xF) = 'S'
      · rw [if_pos h1, if_pos h1, ih, List.drop_drop, (contrib_consume u h1).2,
          List.append_assoc]
      · rw [if_neg h1, if_neg h1, qContrib_zero u h1, Nat.zero_add]
        by_cases h2 : opCodeToChar (u &&& 0xF) = 'D' ∨ opCodeToChar (u &&& 0xF) = 'N' ∨
            opCodeToChar (u &&& 0xF) = 'P'
        · rw [if_pos h2, if_pos h2, ih, List.append_assoc]
        · rw [if_neg h2, if_neg h2, ih]

theorem renderPad_take_of_le (c : Cigar) :
    ∀ (s : List Char) (m : Nat), queryConsumed c ≤ m →
      renderPad c (s.take m) = renderPad c s := by
  induction c with
  | nil => intro s m _; rfl
  | cons u rest ih =>
      intro s m hm
      rw [queryConsumed_cons] at hm
      rw [renderPad, renderPad]
      by_cases h1 : opCodeToChar (u &&& 0xF) = 'M' ∨ opCodeToChar (u &&& 0xF) = '=' ∨
          opCodeToChar (u &&& 0xF) = 'X' ∨ opCodeToChar (u &&& 0xF) = 'I' ∨
          opCodeToChar (u &&& 0xF) = 'S'
      · rw [if_pos h1, if_pos h1]
        have hlen : qContrib u = u >>> 4 := (contrib_consume u h1).2
        rw [List.take_take, min_eq_left (by omega), List.drop_take,
          ih (s.drop (u >>> 4)) (m - (u >>> 4)) (by omega)]
      · rw [if_neg h1, if_neg h1]
        have h0 : qContrib u = 0 := qContrib_zero u h1
        by_cases h2 : opCodeToChar (u &&& 0xF) = 'D' ∨ opCodeToChar (u &&& 0xF) = 'N' ∨
            opCodeToChar (u &&& 0xF) = 'P'
        · rw [if_pos h2, if_pos h2, ih s m (by omega)]
        · rw [if_neg h2, if_neg h2, ih s m (by omega)]

theorem renderPad_length (c : Cigar) :
    ∀ s : List Char, (∀ u ∈ c, opOk u) → queryConsumed c ≤ s.length →
      (renderPad c s).length = alignedLength c := by
  induction c with
  | nil => intro s _ _; rfl
  | cons u rest ih =>
      intro s hops hm
      rw [queryConsumed_cons] at hm
      have hopu : opOk u := hops u (by simp)
      have hrest : ∀ v ∈ rest, opOk v := fun v hv => hops v (by simp [hv])
      rw [renderPad, alignedLength_cons]
      rcases hopu with h | h | h | h | h | h | h
      all_goals first
      | (rw [if_neg (by rw [h]; decide), if_neg (by rw [h]; decide)]
         rw [(contrib_H u h).1, Nat.zero_add]
         have h0 : qContrib u = 0 := (contrib_H u h).2
         rw [h0] at hm
         exact ih s hrest (by omega))
      | (rw [if_pos (by rw [h]; decide)]
         have hc : aContrib u = u >>> 4 ∧ qContrib u = u >>> 4 :=
           contrib_consume u (by rw [h]; decide)
         rw [hc.2] at hm
         rw [List.length_append, List.length_take, min_eq_left (by omega),
           ih (s.drop (u >>> 4)) hrest (by rw [List.length_drop]; omega), hc.1])
      | (rw [if_neg (by rw [h]; decide), if_pos (by rw [h]; decide)]
         have hc := contrib_D u h
         rw [hc.2] at hm
         rw [List.length_append, List.length_replicate, ih s hrest (by omega), hc.1])

theorem renderKept_take (c : Cigar) :
    ∀ s : List Char, queryConsumed c ≤ s.length →
      renderKept c s = s.take (queryConsumed c) := by
  induction c with
  | nil => intro s _; rfl
  | cons u rest ih =>
      intro s hm
      rw [queryConsumed_cons] at hm
      rw [renderKept, queryConsumed_cons]
      by_cases h1 : opCodeToChar (u &&& 0xF) = 'M' ∨ opCodeToChar (u &&& 0xF) = '=' ∨
          opCodeToChar (u &&& 0xF) = 'X' ∨ opCodeToChar (u &&& 0xF) = 'I' ∨
          opCodeToChar (u &&& 0xF) = 'S'
      · rw [if_pos h1]
        have hlen : qContrib u = u >>> 4 := (contrib_consume u h1).2
        rw [hlen] at hm ⊢
        rw [ih (s.drop (u >>> 4)) (by rw [List.length_drop]; omega), List.take_add]
      · rw [if_neg h1]
        have h0 : qContrib u = 0 := qContrib_zero u h1
        rw [h0, Nat.zero_add] at hm ⊢
        exact ih s hm

theorem drop_eq_replicate_append :
    ∀ (len A : Nat) (out : List Char), A + len ≤ out.length →
      (∀ i, i < A + len → out.getD i '?' = '-') →
      out.drop A = List.replicate len '-' ++ out.drop (A + len) := by
  intro len
  induction len with
  | zero => intro A out _ _; simp
  | succ n ih =>
      intro A out h1 h2
      have hA : A < out.length := by omega
      rw [List.drop_eq_getElem_cons hA]
      have hc : out[A] = '-' := by
        rw [← List.getD_eq_getElem out '?' hA]
        exact h2 A (by omega)
      rw [hc, List.replicate_succ, List.cons_append]
      have e1 : A + (n + 1) = A + 1 + n := by omega
      rw [e1]
      exact congrArg _ (ih (A + 1) out (by omega) (fun i hi => h2 i (by omega)))

theorem fillBack_cons_consume (orig out : List Char) (u : CigarUnit) (rest : Cigar)
    (ap qp : Nat)
    (h : opCodeToChar (u &&& 0xF) = 'M' ∨ opCodeToChar (u &&& 0xF) = '=' ∨
      opCodeToChar (u &&& 0xF) = 'X' ∨ opCodeToChar (u &&& 0xF) = 'I' ∨
      opCodeToChar (u &&& 0xF) = 'S')
    (h1 : u >>> 4 ≤ ap) (h2 : ap ≤ out.length) (h3 : u >>> 4 ≤ qp)
    (h4 : qp ≤ orig.length) :
    fillBack orig (u :: rest) ap qp out =
      fillBack orig rest (ap - u >>> 4) (qp - u >>> 4)
        (out.take (ap - u >>> 4) ++ (orig.drop (qp - u >>> 4)).take (u >>> 4) ++
          out.drop ap) := by
  have hcb := copyBack_spec orig (u >>> 4) ap qp out h1 h2 h3 h4
  simp only [fillBack]
  rcases h with h | h | h | h | h <;> rw [h]
  · rw [if_pos (by decide), hcb]
  · rw [if_pos (by decide), hcb]
  · rw [if_pos (by decide), hcb]
  · rw [if_neg (by decide), if_pos (by decide), hcb]
  · rw [if_neg (by decide), if_neg (by decide), if_neg (by decide),
      if_pos (by decide), hcb]

theorem fillBack_cons_D (orig out : List Char) (u : CigarUnit) (rest : Cigar)
    (ap qp : Nat) (h : opCodeToChar (u &&& 0xF) = 'D') :
    fillBack orig (u :: rest) ap qp out =
      fillBack orig rest (ap - u >>> 4) qp out := by
  simp only [fillBack]
  rw [h, if_neg (by decide), if_neg (by decide), if_pos (by decide)]

theorem fillBack_cons_H (orig out : List Char) (u : CigarUnit) (rest : Cigar)
    (ap qp : Nat) (h : opCodeToChar (u &&& 0xF) = 'H') :
    fillBack orig (u :: rest) ap qp out = fillBack orig rest ap qp out := by
  simp only [fillBack]
  rw [h, if_neg (by decide), if_neg (by decide), if_neg (by decide),
    if_neg (by decide), if_pos (by decide)]

theorem renderPad_single_consume (u : CigarUnit) (s : List Char)
    (h : opCodeToChar (u &&& 0xF) = 'M' ∨ opCodeToChar (u &&& 0xF) = '=' ∨
      opCodeToChar (u &&& 0xF) = 'X' ∨ opCodeToChar (u &&& 0xF) = 'I' ∨
      opCodeToChar (u &&& 0xF) = 'S') :
    renderPad [u] s = s.take (u >>> 4) := by
  rw [renderPad, if_pos h, renderPad, List.append_nil]

theorem renderPad_single_D (u : CigarUnit) (s : List Char)
    (h : opCodeToChar (u &&& 0xF) = 'D') :
    renderPad [u] s = List.replicate (u >>> 4) '-' := by
  rw [renderPad, if_neg (by rw [h]; decide), if_pos (by rw [h]; decide),
    renderPad, List.append_nil]

theorem renderPad_single_H (u : CigarUnit) (s : List Char)
    (h : opCodeToChar (u &&& 0xF) = 'H') :
    renderPad [u] s = [] := by
  rw [renderPad, if_neg (by rw [h]; decide), if_neg (by rw [h]; decide), renderPad]

theorem fillBack_spec (orig : List Char) :
    ∀ (crev : List CigarUnit) (out : List Char),
      (∀ u ∈ crev, opOk u) →
      queryConsumed crev.reverse ≤ orig.length →
      alignedLength crev.reverse ≤ out.length →
      (∀ i, i < alignedLength crev.reverse → out.getD i '?' = '-') →
      fillBack orig crev (alignedLength crev.reverse) (queryConsumed crev.reverse) out =
        .ok (renderPad crev.reverse (orig.take (queryConsumed crev.reverse)) ++
          out.drop (alignedLength crev.reverse), 0, 0) := by
  intro crev
  induction crev with
  | nil =>
      intro out _ _ _ _
      simp [fillBack, renderPad, alignedLength, queryConsumed]
  | cons u rest ih =>
      intro out hops hq hal hgap
      have hopu : opOk u := hops u (by simp)
      have hrest : ∀ v ∈ rest, opOk v := fun v hv => hops v (by simp [hv])
      rw [List.reverse_cons] at hq hal hgap ⊢
      rw [queryConsumed_snoc] at hq ⊢
      rw [alignedLength_snoc] at hal hgap ⊢
      rw [renderPad_append]
      by_cases h5 : opCodeToChar (u &&& 0xF) = 'M' ∨ opCodeToChar (u &&& 0xF) = '=' ∨
          opCodeToChar (u &&& 0xF) = 'X' ∨ opCodeToChar (u &&& 0xF) = 'I' ∨
          opCodeToChar (u &&& 0xF) = 'S'
      · have hca : aContrib u = u >>> 4 := (contrib_consume u h5).1
        have hcq : qContrib u = u >>> 4 := (contrib_consume u h5).2
        rw [hca] at hal hgap ⊢
        rw [hcq] at hq ⊢
        have hstep := fillBack_cons_consume orig out u rest
          (alignedLength rest.reverse + u >>> 4)
          (queryConsumed rest.reverse + u >>> 4) h5 (Nat.le_add_left _ _) hal
          (Nat.le_add_left _ _) hq
        rw [hstep]
        simp only [Nat.add_sub_cancel]
        rw [ih (out.take (alignedLength rest.reverse) ++
            (orig.drop (queryConsumed rest.reverse)).take (u >>> 4) ++
            out.drop (alignedLength rest.reverse + u >>> 4)) hrest (by omega)
          (by simp [List.length_append, List.length_take, List.length_drop]; omega)
          (by
            intro i hi
            rw [List.append_assoc]
            rw [List.getD_append (out.take (alignedLength rest.reverse)) _ '?' i
              (by rw [List.length_take]; omega)]
            rw [List.getD_eq_getElem (out.take (alignedLength rest.reverse)) '?'
              (by rw [List.length_take]; omega)]
            rw [List.getElem_take]
            rw [← List.getD_eq_getElem out '?' (by omega)]
            exact hgap i (by omega))]
        rw [List.append_assoc (out.take (alignedLength rest.reverse))]
        rw [List.drop_left' (show (out.take (alignedLength rest.reverse)).length =
          alignedLength rest.reverse by rw [List.length_take]; omega)]
        rw [renderPad_single_consume u _ h5]
        rw [List.drop_take, Nat.add_sub_cancel_left, List.take_take, min_self]
        have hrp : renderPad rest.reverse (orig.take (queryConsumed rest.reverse)) =
            renderPad rest.reverse
              (orig.take (queryConsumed rest.reverse + u >>> 4)) := by
          have h1 : orig.take (queryConsumed rest.reverse) =
              (orig.take (queryConsumed rest.reverse + u >>> 4)).take
                (queryConsumed rest.reverse) := by
            rw [List.take_take, min_eq_left (by omega)]
          rw [h1, renderPad_take_of_le rest.reverse _ _ le_rfl]
        rw [hrp, List.append_assoc]
      · by_cases hD : opCodeToChar (u &&& 0xF) = 'D'
        · have hca : aContrib u = u >>> 4 := (contrib_D u hD).1
          have hcq : qContrib u = 0 := (contrib_D u hD).2
          rw [hca] at hal hgap ⊢
          rw [hcq] at hq ⊢
          rw [Nat.add_zero] at hq ⊢
          rw [fillBack_cons_D orig out u rest _ _ hD]
          simp only [Nat.add_sub_cancel]
          rw [ih out hrest hq (by omega) (fun i hi => hgap i (by omega))]
          rw [renderPad_single_D u _ hD]
          rw [drop_eq_replicate_append (u >>> 4) (alignedLength rest.reverse) out hal
            (fun i hi => hgap i hi)]
          rw [List.append_assoc]
        · have hH : opCodeToChar (u &&& 0xF) = 'H' := by
            rcases hopu with h | h | h | h | h | h | h
            exacts [absurd (Or.inl h) h5, absurd (Or.inr (Or.inl h)) h5,
              absurd (Or.inr (Or.inr (Or.inl h))) h5,
              absurd (Or.inr (Or.inr (Or.inr (Or.inl h)))) h5, absurd h hD,
              absurd (Or.inr (Or.inr (Or.inr (Or.inr h)))) h5, h]
          have hca : aContrib u = 0 := (contrib_H u hH).1
          have hcq : qContrib u = 0 := (contrib_H u hH).2
          rw [hca] at hal hgap ⊢
          rw [hcq] at hq ⊢
          simp only [Nat.add_zero] at hq hal hgap ⊢
          rw [fillBack_cons_H orig out u rest _ _ hH]
          rw [ih out hrest hq hal hgap]
          rw [renderPad_single_H u _ hH, List.append_nil]

theorem qContrib_le_aContrib (u : CigarUnit) : qContrib u ≤ aContrib u := by
  simp only [qContrib, aContrib]
  by_cases h : opCodeToChar (u &&& 0xF) = 'M' ∨ opCodeToChar (u &&& 0xF) = '=' ∨
      opCodeToChar (u &&& 0xF) = 'X' ∨ opCodeToChar (u &&& 0xF) = 'I' ∨
      opCodeToChar (u &&& 0xF) = 'S'
  · rw [if_pos h, if_pos ?ha]
    case ha =>
      rcases h with h | h | h | h | h
      exacts [Or.inl h, Or.inr (Or.inl h), Or.inr (Or.inr (Or.inl h)),
        Or.inr (Or.inr (Or.inr (Or.inr (Or.inl h)))),
        Or.inr (Or.inr (Or.inr (Or.inr (Or.inr h))))]
  · rw [if_neg h]
    exact Nat.zero_le _

theorem queryConsumed_le_alignedLength (c : Cigar) :
    queryConsumed c ≤ alignedLength c := by
  rw [queryConsumed_eq_sum, alignedLength_eq_sum]
  exact List.sum_le_sum (fun u _ => qContrib_le_aContrib u)

theorem aContrib_eq_ref_add_ins (u : CigarUnit) (h : opOk u) :
    aContrib u = refContrib u + insContrib u := by
  unfold opOk at h
  unfold aContrib refContrib insContrib
  generalize hg : u &&& 0xF = m at h ⊢
  have hb : m ≤ 15 := hg ▸ Nat.and_le_right
  clear hg
  interval_cases m <;> simp_all [opCodeToChar]

theorem alignedLength_eq_ref_add_ins (c : Cigar) (h : ∀ u ∈ c, opOk u) :
    alignedLength c = getRefLength c + (c.map insContrib).sum := by
  rw [alignedLength_eq_sum, getRefLength_eq_sum]
  induction c with
  | nil => rfl
  | cons u rest ih =>
      simp only [List.map_cons, List.sum_cons]
      rw [aContrib_eq_ref_add_ins u (h u (by simp)),
        ih (fun v hv => h v (by simp [hv]))]
      omega

end C3Lemmas

section C3

open cigar

/-- C3 (amended).  For CIGARs built from the operations the fill loop handles
coherently (`M`, `=`, `X`, `I`, `D`, `S`, `H` — no `N`/`P`, whose lengths the
buffer size omits) and consuming exactly `|seq|` query characters:
an empty query or empty CIGAR is a no-op; otherwise the projection succeeds
and returns the forward rendering `renderPad c seq`, whose length is
`aligned_length c` — that is, `ref_length c` **plus** the `I`/`S` lengths,
not `ref_length c` — and whose query-consumed segments concatenate back to
the original `seq`. -/
theorem c3_projection_contract (seq : List Char) (c : Cigar)
    (hops : ∀ u ∈ c, opOk u) (hcons : queryConsumed c = seq.length) :
    (seq = [] ∨ c = [] → alignQueryToRef seq c = .ok seq) ∧
    (seq ≠ [] → c ≠ [] →
      alignQueryToRef seq c = .ok (renderPad c seq) ∧
      (renderPad c seq).length = alignedLength c ∧
      alignedLength c = getRefLength c + (c.map insContrib).sum ∧
      renderKept c seq = seq) := by
  constructor
  · rintro (h | h) <;> simp [alignQueryToRef, h]
  · intro hseq hc
    have hql : queryConsumed c ≤ alignedLength c := queryConsumed_le_alignedLength c
    have hsl : 0 < seq.length := List.length_pos.mpr hseq
    have ha0 : alignedLength c ≠ 0 := by omega
    have hmain : alignQueryToRef seq c = .ok (renderPad c seq) := by
      simp only [alignQueryToRef]
      rw [if_neg (by simp [List.isEmpty_iff, hseq, hc])]
      rw [if_neg ha0]
      have hfb := fillBack_spec seq c.reverse (List.replicate (alignedLength c) '-')
        (fun u hu => hops u (List.mem_reverse.mp hu))
        (by rw [List.reverse_reverse, hcons])
        (by rw [List.reverse_reverse, List.length_replicate])
        (by
          intro i hi
          rw [List.reverse_reverse] at hi
          rw [List.getD_eq_getElem _ '?' (by rw [List.length_replicate]; exact hi)]
          exact List.getElem_replicate '-' _)
      rw [List.reverse_reverse] at hfb
      rw [hcons] at hfb
      rw [hfb]
      rw [show (List.replicate (alignedLength c) '-').drop (alignedLength c) = []
        from List.drop_eq_nil_of_le (by rw [List.length_replicate])]
      rw [List.take_length, List.append_nil]
      rfl
    exact ⟨hmain, renderPad_length c seq hops (by omega),
      alignedLength_eq_ref_add_ins c hops,
      by rw [renderKept_take c seq (by omega), hcons, List.take_length]⟩

/-- C3 counterexample: the single-unit CIGAR `1I` consumes exactly the one
character of `seq = "A"`, and the projection returns `"A"` — a string of
length 1, not of length `ref_length = 0` as the claim demands (`I` consumes
query but no reference; the code sizes the buffer by `aligned_length`, which
counts `I` and `S`). -/
theorem c3_projection_counterexample :
    cigar.queryConsumed [cigar.mkUnit 1 1] = (['A'] : List Char).length ∧
    cigar.alignQueryToRef ['A'] [cigar.mkUnit 1 1] = .ok ['A'] ∧
    (['A'] : List Char).length ≠ cigar.getRefLength [cigar.mkUnit 1 1] := by
  refine ⟨by decide, by rfl, by decide⟩

/-- Witness for C3: `seq = "ACG"`, CIGAR `1M 1I 1M` (query fully consumed). -/
theorem c3_projection_contract_witness :
    cigar.alignQueryToRef ['A', 'C', 'G']
        [cigar.mkUnit 0 1, cigar.mkUnit 1 1, cigar.mkUnit 0 1] =
      .ok (cigar.renderPad [cigar.mkUnit 0 1, cigar.mkUnit 1 1, cigar.mkUnit 0 1]
        ['A', 'C', 'G']) ∧
    (cigar.renderPad [cigar.mkUnit 0 1, cigar.mkUnit 1 1, cigar.mkUnit 0 1]
        ['A', 'C', 'G']).length =
      cigar.alignedLength [cigar.mkUnit 0 1, cigar.mkUnit 1 1, cigar.mkUnit 0 1] ∧
    cigar.alignedLength [cigar.mkUnit 0 1, cigar.mkUnit 1 1, cigar.mkUnit 0 1] =
      cigar.getRefLength [cigar.mkUnit 0 1, cigar.mkUnit 1 1, cigar.mkUnit 0 1] +
        ([cigar.mkUnit 0 1, cigar.mkUnit 1 1, cigar.mkUnit 0 1].map
          cigar.insContrib).sum ∧
    cigar.renderKept [cigar.mkUnit 0 1, cigar.mkUnit 1 1, cigar.mkUnit 0 1]
      ['A', 'C', 'G'] = ['A', 'C', 'G'] :=
  (c3_projection_contract ['A', 'C', 'G']
    [cigar.mkUnit 0 1, cigar.mkUnit 1 1, cigar.mkUnit 0 1]
    (by decide) (by decide)).2 (by decide) (by decide)

end C3
